import Mathlib

/-!
# HTTP request broker (mordor/http/broker.cpp)

A shallow embedding of the broker chain of `mordor/http/broker.cpp`:
the connection cache (`ConnectionCache`), the socket stream broker
(`SocketStreamBroker`), the base request broker (`BaseRequestBroker`) and the
redirect filter (`RedirectRequestBroker`).

Conventions of the embedding.

* A `shared_ptr` that may be null is an `Option`.
* A C++ exception is a value of `Error`; a function that may throw returns
  `Except Error _`.
* Objects that a broker calls (the connection broker and the connections
  seen by the request broker, the request broker wrapped by the redirect
  filter) are given by the list of answers they give to the successive calls
  made to them.  A list that is used up means that the callee has not answered: the
  caller is still blocked inside that call.
* The pool mutex makes every critical section atomic; a critical section is
  one function of the pool.  `FiberCondition::wait` ends a critical section
  (result `wait`); `broadcast` has no effect on the pool itself.
-/

namespace Mordor
namespace HTTP

/-! ## Shared types -/

/-- Modelled from the spec: the authority of a URI (mordor/uri.h is not part
of the sources): a host and a port, each of which may be undefined. -/
structure Authority where
  host : Option String
  port : Option Nat
deriving DecidableEq, Repr

/-- Modelled from the spec: the URI value type (mordor/uri.h is not part of
the sources): optional scheme, authority, path, optional query and
fragment.  `schemeDefined(false)` is `scheme := none`. -/
structure URI where
  scheme : Option String
  authority : Authority
  path : String
  query : Option String
  fragment : Option String
deriving DecidableEq, Repr

/-- Modelled from the spec: the exception classes, which are declared
outside broker.cpp, by the error kinds of section 7.  `socket` stands for
`SocketException` and its subclasses (timeouts included), `aborted` for
`OperationAbortedException`, `assertion` for a `MORDOR_ASSERT` that does not
hold, `other` for any further exception. -/
inductive Error where
  | aborted
  | socket
  | priorRequestFailed
  | tls
  | httpProtocol
  | circularRedirect (uri : URI)
  | assertion
  | other (code : Nat)
deriving DecidableEq, Repr

/-- Modelled from the spec: `Address` (declared outside broker.cpp), a
resolved transport endpoint. -/
structure Address where
  id : Nat
deriving DecidableEq, Repr

/-- Modelled from the spec: `Socket` (declared outside broker.cpp), as
created for an address by `Address::createSocket`. -/
structure Socket where
  address : Address
deriving DecidableEq, Repr

/-- Modelled from the spec: `Stream` (declared outside broker.cpp), a byte
stream: `SocketStream(socket)` over a possibly null socket pointer, an
`SSLStream` over a parent stream, or any other stream. -/
inductive Stream where
  | socketStream (socket : Option Socket)
  | sslStream (parent : Stream)
  | pipe (id : Nat)
deriving DecidableEq, Repr

/-- Modelled from the spec: `ClientConnection` (declared outside
broker.cpp), the object built over one stream by `ClientConnection(stream)`;
the brokers never look inside it. -/
structure ClientConnection where
  stream : Stream
deriving DecidableEq, Repr

/-- Modelled from the spec: what a call can observe of the connections,
`outstandingRequests()` and `newRequestsAllowed()` of `ClientConnection`
(declared outside broker.cpp), at the time of the call. -/
structure ConnectionView where
  outstandingRequests : ClientConnection → Nat
  newRequestsAllowed : ClientConnection → Bool

/-! ## ConnectionCache -/

/-- `ConnectionList`: `std::list<ClientConnection::ptr>`; a null pointer
(`none`) is a slot reserved for a connection being established. -/
abbrev ConnectionList := List (Option ClientConnection)

/-- `m_conns`: `std::map<URI, pair<ConnectionList, FiberCondition>>` as an
association list; a new key is added at the end.  The condition variable
carries no data and is left out. -/
abbrev ConnectionMap := List (URI × ConnectionList)

/-- `m_conns.find(key)`: the slot list of the entry, if there is one. -/
def find : ConnectionMap → URI → Option ConnectionList
  | [], _ => none
  | (k, l) :: rest, key => if k = key then some l else find rest key

/-- The inner loop of the clean-up (lines 144-151): erase every slot that
holds a connection which no longer allows new requests. -/
def sweepList (v : ConnectionView) : ConnectionList → ConnectionList
  | [] => []
  | some c :: rest =>
      if !v.newRequestsAllowed c then sweepList v rest
      else some c :: sweepList v rest
  | none :: rest => none :: sweepList v rest

/-- The outer loop of the clean-up (lines 143-160): clean every entry and
erase the entries left empty. -/
def sweep (v : ConnectionView) : ConnectionMap → ConnectionMap
  | [] => []
  | (k, l) :: rest =>
      if (sweepList v l).isEmpty then sweep v rest
      else (k, sweepList v l) :: sweep v rest

/-- Lines 162-165: the key of the pool, `uri` with path, query and fragment
cleared. -/
def schemeAndAuthority (uri : URI) : URI :=
  { uri with path := "", query := none, fragment := none }

/-- The comparator `least` (lines 119-130). -/
def least (v : ConnectionView) :
    Option ClientConnection → Option ClientConnection → Bool
  | some lhs, some rhs => v.outstandingRequests lhs < v.outstandingRequests rhs
  | none, _ => false
  | some _, none => true

/-- The loop of `std::min_element`: `si`, `s` are the position and value of
the smallest element so far, `i` the position of the next element. -/
def minElementFrom {α : Type} (comp : α → α → Bool) :
    Nat → α → Nat → List α → Nat × α
  | si, s, _, [] => (si, s)
  | si, s, i, x :: xs =>
      if comp x s then minElementFrom comp i x (i + 1) xs
      else minElementFrom comp si s (i + 1) xs

/-- `std::min_element(first, last, comp)`: position and value of the first
smallest element; `none` for an empty range. -/
def minElement {α : Type} (comp : α → α → Bool) : List α → Option (Nat × α)
  | [] => none
  | x :: xs => some (minElementFrom comp 0 x 1 xs)

/-- Outcome of one pass of the selection loop (lines 168-191). -/
inductive Selection where
  | found (c : ClientConnection)
  | wait
  | dial
deriving DecidableEq, Repr

/-- One pass of the loop `while (true)` of lines 168-191 for the key `key`:
return a completed connection, wait on the condition of the entry, or leave
the loop to establish a connection. -/
def select (perHost : Nat) (v : ConnectionView) (m : ConnectionMap)
    (key : URI) : Selection :=
  match find m key with
  | some l =>
      if !l.isEmpty && decide (perHost ≤ l.length) then
        match minElement (least v) l with
        | some (_, some c) => .found c
        | some (_, none) => .wait
        | none => .dial
      else .dial
  | none => .dial

/-- Line 194: `m_conns[key].first.push_back(ClientConnection::ptr())`. -/
def pushPending : ConnectionMap → URI → ConnectionMap
  | [], key => [(key, [none])]
  | (k, l) :: rest, key =>
      if k = key then (k, l ++ [none]) :: rest
      else (k, l) :: pushPending rest key

/-- Lines 215-222: assign the connection to the first blank slot. -/
def assignFirstBlank (c : ClientConnection) : ConnectionList → ConnectionList
  | [] => []
  | none :: rest => some c :: rest
  | some d :: rest => some d :: assignFirstBlank c rest

/-- Lines 232-239: erase the first blank slot. -/
def eraseFirstBlank : ConnectionList → ConnectionList
  | [] => []
  | none :: rest => rest
  | some d :: rest => some d :: eraseFirstBlank rest

/-- The critical section of lines 209-225 on the entry `key`. -/
def dialSucceeded (c : ClientConnection) : ConnectionMap → URI → ConnectionMap
  | [], _ => []
  | (k, l) :: rest, key =>
      if k = key then (k, assignFirstBlank c l) :: rest
      else (k, l) :: dialSucceeded c rest key

/-- The critical section of lines 227-242 on the entry `key`: erase the
first blank slot, and the entry when it is left empty. -/
def dialFailed : ConnectionMap → URI → ConnectionMap
  | [], _ => []
  | (k, l) :: rest, key =>
      if k = key then
        if (eraseFirstBlank l).isEmpty then rest
        else (k, eraseFirstBlank l) :: rest
      else (k, l) :: dialFailed rest key

/-- The first critical section of `getConnection` (lines 141-203): clean-up,
then for `forceNewConnection = false` one pass of the selection loop, then,
unless a connection is returned or waited for, the reservation of a blank
slot. -/
def enter (perHost : Nat) (v : ConnectionView) (m : ConnectionMap) (uri : URI)
    (forceNewConnection : Bool) : Selection × ConnectionMap :=
  let m1 := sweep v m
  let key := schemeAndAuthority uri
  match (if forceNewConnection then Selection.dial else select perHost v m1 key) with
  | .found c => (.found c, m1)
  | .wait => (.wait, m1)
  | .dial => (.dial, pushPending m1 key)

/-- A waiter woken by `broadcast` repeats the selection loop from
`m_conns.find` (line 170), without the clean-up. -/
def wake (perHost : Nat) (v : ConnectionView) (m : ConnectionMap) (key : URI) :
    Selection × ConnectionMap :=
  match select perHost v m key with
  | .found c => (.found c, m)
  | .wait => (.wait, m)
  | .dial => (.dial, pushPending m key)

/-- A stream broker (`StreamBroker` interface) with state `σ`:
`getStream(uri)` and `cancelPending()`. -/
structure StreamBroker (σ : Type) where
  getStream : σ → URI → Except Error Stream × σ
  cancelPending : σ → σ

/-- Result of a `getConnection` call. -/
inductive GetResult where
  | returned (c : ClientConnection) (viaProxy : Bool)
  | raised (e : Error)
  | waiting
deriving DecidableEq, Repr

/-- State after a `getConnection` call: the result, `m_conns`, the state of
the stream broker and the `getStream` calls made. -/
structure GetOutcome (σ : Type) where
  result : GetResult
  conns : ConnectionMap
  broker : σ
  dials : List URI

/-- `ConnectionCache::getConnection` (lines 132-246) run without any other
task in between.  `waiting`: the task is suspended in `wait()` (line 182). -/
def getConnection {σ : Type} (perHost : Nat) (v : ConnectionView)
    (b : StreamBroker σ) (s : σ) (m : ConnectionMap) (uri : URI)
    (forceNewConnection : Bool) : GetOutcome σ :=
  match enter perHost v m uri forceNewConnection with
  | (.found c, m1) => ⟨.returned c false, m1, s, []⟩
  | (.wait, m1) => ⟨.waiting, m1, s, []⟩
  | (.dial, m1) =>
      let key := schemeAndAuthority uri
      match b.getStream s key with
      | (.ok stream, s1) =>
          ⟨.returned ⟨stream⟩ false, dialSucceeded ⟨stream⟩ m1 key, s1, [key]⟩
      | (.error e, s1) => ⟨.raised e, dialFailed m1 key, s1, [key]⟩

/-- The streams cancelled by `closeConnections` (lines 255-266): the stream
of every completed connection.  The list follows the association list, entry
by entry; the code visits the entries in the order of their keys. -/
def cancelledStreams : ConnectionMap → List Stream
  | [] => []
  | (_, l) :: rest => (l.filterMap (fun s => s.map (fun c => c.stream))) ++ cancelledStreams rest

/-- `ConnectionCache::closeConnections` (lines 248-268): cancel the pending
dials of the stream broker, cancel read and write on every completed
connection, clear the map.  Returns the new map, the broker state and the
streams cancelled. -/
def closeConnections {σ : Type} (b : StreamBroker σ) (s : σ) (m : ConnectionMap) :
    ConnectionMap × σ × List Stream :=
  ([], b.cancelPending s, cancelledStreams m)

/-! ## SocketStreamBroker -/

/-- The state of a `SocketStreamBroker`: `m_cancelled` and `m_pending`. -/
structure SocketStreamBroker where
  cancelled : Bool
  pending : List Socket
deriving DecidableEq, Repr

/-- What the network answers to a `SocketStreamBroker`: `Address::lookup` for
a name, and `Socket::connect` for an address. -/
structure Network where
  lookup : String → Except Error (List Address)
  connect : Address → Except Error Unit

/-- Lines 42-47: the name that is looked up, `host[:port|:scheme]`. -/
def lookupName (uri : URI) : String :=
  uri.authority.host.getD "" ++
    (match uri.authority.port with
     | some p => ":" ++ toString p
     | none =>
        match uri.scheme with
        | some sch => ":" ++ sch
        | none => "")

/-- The loop over the addresses (lines 54-84), without a concurrent
`cancelPending`.  `socket` is the variable `socket` before the pass; the
socket of the pass is pushed on `m_pending` (line 66) and erased at its
position `it2` (lines 76 and 80). -/
def connectLoop (net : Network) :
    SocketStreamBroker → Option Socket → List Address →
    Except Error (Option Socket) × SocketStreamBroker
  | s, socket, [] => (.ok socket, s)
  | s, _, a :: rest =>
      if s.cancelled then (.error .aborted, s)
      else
        let it2 := s.pending.length
        let s1 : SocketStreamBroker := { s with pending := s.pending ++ [⟨a⟩] }
        match net.connect a with
        | .ok _ => (.ok (some ⟨a⟩), { s1 with pending := s1.pending.eraseIdx it2 })
        | .error e =>
            if rest.isEmpty then (.error e, { s1 with pending := s1.pending.eraseIdx it2 })
            else connectLoop net { s1 with pending := s1.pending.eraseIdx it2 } (some ⟨a⟩) rest

/-- `SocketStreamBroker::getStream` (lines 34-87). -/
def SocketStreamBroker.getStream (net : Network) (s : SocketStreamBroker)
    (uri : URI) : Except Error Stream × SocketStreamBroker :=
  if s.cancelled then (.error .aborted, s)
  else if !uri.authority.host.isSome then (.error .assertion, s)
  else if !(uri.authority.port.isSome || uri.scheme.isSome) then (.error .assertion, s)
  else
    match net.lookup (lookupName uri) with
    | .error e => (.error e, s)
    | .ok addresses =>
        match connectLoop net s none addresses with
        | (.ok socket, s1) => (.ok (.socketStream socket), s1)
        | (.error e, s1) => (.error e, s1)

/-- `SocketStreamBroker::cancelPending` (lines 89-101): latch `m_cancelled`
(the sockets of `m_pending` are cancelled, the list is not changed). -/
def SocketStreamBroker.cancelPending (s : SocketStreamBroker) : SocketStreamBroker :=
  { s with cancelled := true }

/-- The socket stream broker over a network, as a `StreamBroker`. -/
def socketStreamBroker (net : Network) : StreamBroker SocketStreamBroker where
  getStream := SocketStreamBroker.getStream net
  cancelPending := SocketStreamBroker.cancelPending

/-! ## Requests -/

deriving instance DecidableEq for Except

/-- Modelled from the spec: the request methods (declared outside
broker.cpp). -/
inductive Method where
  | GET | HEAD | POST | PUT | DELETE | CONNECT | OPTIONS | TRACE
deriving DecidableEq, Repr

/-- Modelled from the spec: `requestHeaders.requestLine` (the type is
declared outside broker.cpp), method and URI. -/
structure RequestLine where
  method : Method
  uri : URI
deriving DecidableEq, Repr

/-- Modelled from the spec: `requestHeaders.request` (the type is declared
outside broker.cpp), of which the brokers use the `Host` header. -/
structure RequestHeaders where
  host : String
deriving DecidableEq, Repr

/-- Modelled from the spec: `Request` (declared outside broker.cpp), the
headers of a request. -/
structure Request where
  requestLine : RequestLine
  request : RequestHeaders
deriving DecidableEq, Repr

/-- Modelled from the spec: the value of `request->response()` (the type is
declared outside broker.cpp), status code and `Location`. -/
structure Response where
  status : Nat
  location : URI
deriving DecidableEq, Repr

/-- Modelled from the spec: `ClientRequest` (declared outside broker.cpp) as
the brokers use it: `hasRequestBody()`, and the outcomes of `response()` and
of `finish()` (`none`: no exception). -/
structure ClientRequest where
  hasRequestBody : Bool
  response : Except Error Response
  finish : Option Error
deriving DecidableEq

/-- Result of `RequestBroker::request`.  `blocked`: the call made to the
next broker has not been answered. -/
inductive RequestResult where
  | returned (r : ClientRequest)
  | raised (e : Error)
  | blocked
deriving DecidableEq

/-! ## BaseRequestBroker -/

/-- One pass of the retry loop as seen from the connection broker:
`getConnection` raises, or returns `(conn, viaProxy)` and `conn->request`
answers `reply`. -/
inductive Attempt where
  | noConnection (e : Error)
  | connection (conn : ClientConnection) (viaProxy : Bool)
      (reply : Except Error ClientRequest)
deriving DecidableEq

/-- State after `BaseRequestBroker::request`: the result, the headers as the
caller sees them, the arguments of the `getConnection` calls and the headers
passed to `ClientConnection::request`, both in call order. -/
structure BaseOutcome where
  result : RequestResult
  headers : Request
  connects : List (URI × Bool)
  sent : List (ClientConnection × Request)

/-- Lines 311-320: the request-line URI for use with or without a proxy. -/
def fixUpUri (connect viaProxy : Bool) (originalUri currentUri : URI) : URI :=
  if !connect then
    if viaProxy && !currentUri.authority.host.isSome then
      let u := { currentUri with authority := originalUri.authority }
      if originalUri.scheme.isSome then { u with scheme := originalUri.scheme }
      else u
    else if !viaProxy && currentUri.authority.host.isSome then
      { currentUri with
          scheme := none
          authority := { currentUri.authority with host := none } }
    else currentUri
  else currentUri

/-- `requestHeaders` with its request-line URI replaced. -/
def Request.withUri (h : Request) (uri : URI) : Request :=
  { h with requestLine := { h.requestLine with uri := uri } }

/-- The loop of lines 305-336.  `h` is `requestHeaders` (its request-line
URI is `currentUri`), `connects` and `sent` are the calls made so far. -/
def baseLoop (connect : Bool) (originalUri : URI) (forceNewConnection : Bool) :
    List Attempt → Request → List (URI × Bool) → List (ClientConnection × Request) →
    BaseOutcome
  | [], h, connects, sent =>
      ⟨.blocked, h,
        connects ++ [(if connect then originalUri else h.requestLine.uri, forceNewConnection)],
        sent⟩
  | .noConnection e :: _, h, connects, sent =>
      ⟨.raised e, h,
        connects ++ [(if connect then originalUri else h.requestLine.uri, forceNewConnection)],
        sent⟩
  | .connection conn viaProxy reply :: rest, h, connects, sent =>
      let connects1 :=
        connects ++ [(if connect then originalUri else h.requestLine.uri, forceNewConnection)]
      let h1 := h.withUri (fixUpUri connect viaProxy originalUri h.requestLine.uri)
      let sent1 := sent ++ [(conn, h1)]
      match reply with
      | .ok r =>
          ⟨.returned r, if !connect then h1.withUri originalUri else h1, connects1, sent1⟩
      | .error .socket => baseLoop connect originalUri forceNewConnection rest h1 connects1 sent1
      | .error .priorRequestFailed =>
          baseLoop connect originalUri forceNewConnection rest h1 connects1 sent1
      | .error e =>
          ⟨.raised e, if !connect then h1.withUri originalUri else h1, connects1, sent1⟩

/-- `BaseRequestBroker::request` (lines 293-337).  `parseUri` is the
conversion of a string to a `URI` used at line 304; `script` is what the
connection broker and the connections answer, pass after pass. -/
def BaseRequestBroker.request (parseUri : String → URI) (script : List Attempt)
    (requestHeaders : Request) (forceNewConnection : Bool) : BaseOutcome :=
  let originalUri := requestHeaders.requestLine.uri
  let connect := decide (requestHeaders.requestLine.method = Method.CONNECT)
  if !(connect || originalUri.authority.host.isSome) then
    ⟨.raised .assertion, requestHeaders, [], []⟩
  else if !(!connect || !requestHeaders.request.host.isEmpty) then
    ⟨.raised .assertion, requestHeaders, [], []⟩
  else if !connect then
    baseLoop connect originalUri forceNewConnection script
      { requestHeaders with request := { host := originalUri.authority.host.getD "" } } [] []
  else
    baseLoop connect (parseUri ("http://" ++ requestHeaders.request.host))
      forceNewConnection script requestHeaders [] []

/-! ## RedirectRequestBroker -/

/-- Modelled from the spec: status `MOVED_PERMANENTLY` (the enumeration is
declared outside broker.cpp). -/
def MOVED_PERMANENTLY : Nat := 301
/-- Modelled from the spec: status `FOUND`. -/
def FOUND : Nat := 302
/-- Modelled from the spec: status `TEMPORARY_REDIRECT`. -/
def TEMPORARY_REDIRECT : Nat := 307

/-- State after `RedirectRequestBroker::request`: the result, the
request-line URI as the caller sees it, the request-line URI of every
dispatch to the wrapped broker and the number of `finish()` calls. -/
structure RedirectOutcome where
  result : RequestResult
  uri : URI
  dispatched : List URI
  finished : Nat

/-- The loop of lines 346-379.  `transform` is `URI::transform`; `script`
holds the answers of the wrapped broker, one for each dispatch; `currentUri`
is the request-line URI.  The wrapped broker returns with the request line as
it was passed (lines 323-325); what it leaves there when it raises is
overwritten at line 375. -/
def redirectLoop (transform : URI → URI → URI) :
    List (Except Error ClientRequest) → URI → List URI → URI → List URI → Nat →
    RedirectOutcome
  | [], _, _, currentUri, dispatched, finished =>
      ⟨.blocked, currentUri, dispatched ++ [currentUri], finished⟩
  | .error e :: _, originalUri, _, currentUri, dispatched, finished =>
      ⟨.raised e, originalUri, dispatched ++ [currentUri], finished⟩
  | .ok request :: rest, originalUri, uris, currentUri, dispatched, finished =>
      if request.hasRequestBody then
        ⟨.returned request, originalUri, dispatched ++ [currentUri], finished⟩
      else
        match request.response with
        | .error e => ⟨.raised e, originalUri, dispatched ++ [currentUri], finished⟩
        | .ok response =>
            if response.status = FOUND || response.status = TEMPORARY_REDIRECT
                || response.status = MOVED_PERMANENTLY then
              let target := transform currentUri response.location
              if target ∈ uris then
                ⟨.raised (.circularRedirect originalUri), originalUri,
                  dispatched ++ [currentUri], finished⟩
              else
                let originalUri1 :=
                  if response.status = MOVED_PERMANENTLY then target else originalUri
                match request.finish with
                | some e =>
                    ⟨.raised e, originalUri1, dispatched ++ [currentUri], finished + 1⟩
                | none =>
                    redirectLoop transform rest originalUri1 (uris ++ [target]) target
                      (dispatched ++ [currentUri]) (finished + 1)
            else
              ⟨.returned request, originalUri, dispatched ++ [currentUri], finished⟩

/-- `RedirectRequestBroker::request` (lines 339-380) on a request whose
request-line URI is `uri`. -/
def RedirectRequestBroker.request (transform : URI → URI → URI)
    (script : List (Except Error ClientRequest)) (uri : URI) : RedirectOutcome :=
  redirectLoop transform script uri [uri] uri [] 0

/-! ## Reachable pools and expected behaviour -/

/-- A slot survives the clean-up: it is blank, or its connection allows new
requests. -/
def kept (v : ConnectionView) : Option ClientConnection → Bool
  | some c => v.newRequestsAllowed c
  | none => true

/-- One critical section of the cache, as a transition of `m_conns` alone.
With `allowForce = false` only calls with `forceNewConnection = false` are
made.  A dial may be completed, and a waiter woken, for any key at any time:
the pools reached in this way include every pool the cache can be in and
more (also a completion for which no dial is in flight); `CacheStep` below
is the exact transition. -/
inductive Step (perHost : Nat) (allowForce : Bool) : ConnectionMap → ConnectionMap → Prop where
  | enter (v : ConnectionView) (m : ConnectionMap) (uri : URI) (force : Bool)
      (h : force = true → allowForce = true) :
      Step perHost allowForce m (enter perHost v m uri force).2
  | wake (v : ConnectionView) (m : ConnectionMap) (key : URI) :
      Step perHost allowForce m (wake perHost v m key).2
  | dialSucceeded (c : ClientConnection) (m : ConnectionMap) (key : URI) :
      Step perHost allowForce m (dialSucceeded c m key)
  | dialFailed (m : ConnectionMap) (key : URI) :
      Step perHost allowForce m (dialFailed m key)
  | closeConnections (m : ConnectionMap) : Step perHost allowForce m []

/-- The pools reachable from the empty pool by `Step`: a superset of the
pools of `CacheReachable`. -/
inductive Reachable (perHost : Nat) (allowForce : Bool) : ConnectionMap → Prop where
  | empty : Reachable perHost allowForce []
  | step {m m1 : ConnectionMap} :
      Reachable perHost allowForce m → Step perHost allowForce m m1 →
      Reachable perHost allowForce m1

/-- Every slot after a blank slot is blank. -/
def blanksLast : ConnectionList → Bool
  | [] => true
  | some _ :: rest => blanksLast rest
  | none :: rest => rest.all (fun s => s.isNone)

/-- A list of `getConnection` calls made one after the other on the same
cache: the results, and the final pool and broker state. -/
def runCalls {σ : Type} (perHost : Nat) (b : StreamBroker σ) :
    σ → ConnectionMap → List (ConnectionView × URI × Bool) →
    List GetResult × ConnectionMap × σ
  | s, m, [] => ([], m, s)
  | s, m, (v, uri, force) :: rest =>
      let out := getConnection perHost v b s m uri force
      let r := runCalls perHost b out.broker out.conns rest
      (out.result :: r.1, r.2)

/-- Load of a slot as `least` compares it: a blank slot is above every
connection. -/
def load (v : ConnectionView) : Option ClientConnection → WithTop Nat
  | some c => ((v.outstandingRequests c : Nat) : WithTop Nat)
  | none => ⊤

/-! ## Expected behaviour of the request brokers -/

/-- A pass that the retry loop repeats: the connection was obtained and its
`request` raised a socket error or a prior-request-failed error. -/
def Attempt.retried : Attempt → Bool
  | .connection _ _ (.error .socket) => true
  | .connection _ _ (.error .priorRequestFailed) => true
  | _ => false

/-- The two assertions at the head of `BaseRequestBroker::request` hold: a
request other than `CONNECT` has a host in its URI, a `CONNECT` request has
a non-empty `Host` header. -/
def accepted (h : Request) : Bool :=
  if h.requestLine.method = Method.CONNECT then !h.request.host.isEmpty
  else h.requestLine.uri.authority.host.isSome

/-- A run of redirect answers reaches an answer whose target has been
visited: `cur` is the current URI, `visited` the URI on entry followed by
the targets computed so far. -/
inductive Revisits (transform : URI → URI → URI) :
    URI → List URI → List (Except Error ClientRequest) → Prop where
  | here (cur : URI) (visited : List URI) (r : ClientRequest) (resp : Response)
      (rest : List (Except Error ClientRequest)) :
      r.response = .ok resp →
      (resp.status = 301 ∨ resp.status = 302 ∨ resp.status = 307) →
      transform cur resp.location ∈ visited →
      Revisits transform cur visited (.ok r :: rest)
  | later (cur : URI) (visited : List URI) (r : ClientRequest) (resp : Response)
      (rest : List (Except Error ClientRequest)) :
      r.response = .ok resp →
      (resp.status = 301 ∨ resp.status = 302 ∨ resp.status = 307) →
      r.finish = none →
      Revisits transform (transform cur resp.location)
        (visited ++ [transform cur resp.location]) rest →
      Revisits transform cur visited (.ok r :: rest)

/-- The redirects followed during a call, as (status, target): the answers
with status 301, 302 or 307 to a request without a body whose target had not
been visited, up to the first answer that is not one or whose `finish()`
raises. -/
def followed (transform : URI → URI → URI) :
    List (Except Error ClientRequest) → URI → List URI → List (Nat × URI)
  | .ok r :: rest, cur, visited =>
      match r.hasRequestBody, r.response with
      | false, .ok resp =>
          if (resp.status = 301 ∨ resp.status = 302 ∨ resp.status = 307) ∧
              transform cur resp.location ∉ visited then
            (resp.status, transform cur resp.location) ::
              (if r.finish = none then
                followed transform rest (transform cur resp.location)
                  (visited ++ [transform cur resp.location])
               else [])
          else []
      | _, _ => []
  | _, _, _ => []

/-- The URI the caller is to see on exit: the target of the last 301 among
the redirects followed, the URI on entry when there is none. -/
def exitUri (entry : URI) (redirects : List (Nat × URI)) : URI :=
  match (redirects.filter (fun p => p.1 = 301)).getLast? with
  | some p => p.2
  | none => entry

/-- An answer that ends the call whatever came before: an error of the
wrapped broker, a request with a body, a failed `response()`, or a status
other than 301, 302 and 307. -/
def terminal : Except Error ClientRequest → Bool
  | .error _ => true
  | .ok r =>
      r.hasRequestBody ||
        (match r.response with
         | .error _ => true
         | .ok resp => !(resp.status = 301 ∨ resp.status = 302 ∨ resp.status = 307))

/-- The answer raises a circular-redirect error of its own: as the error of
the wrapped broker, of `response()` or of `finish()`. -/
def raisesCircular : Except Error ClientRequest → Bool
  | .error (.circularRedirect _) => true
  | .error _ => false
  | .ok r =>
      (match r.response with
       | .error (.circularRedirect _) => true
       | _ => false) ||
      (match r.finish with
       | some (.circularRedirect _) => true
       | _ => false)

/-- A request object without a body whose response has the given status and
`Location`, and whose `finish()` succeeds. -/
def answer (status : Nat) (location : URI) : ClientRequest :=
  ⟨false, .ok ⟨status, location⟩, none⟩

/-! ## Sample values -/

/-- The URI `http://x/a`. -/
def uriA : URI := ⟨some "http", ⟨some "x", none⟩, "/a", none, none⟩

/-- The URI `http://x/b`. -/
def uriB : URI := ⟨some "http", ⟨some "x", none⟩, "/b", none, none⟩

/-- The pool key `http://x`. -/
def keyX : URI := ⟨some "http", ⟨some "x", none⟩, "", none, none⟩

/-- A connection over a first pipe. -/
def connA : ClientConnection := ⟨.pipe 0⟩

/-- A connection over a second pipe. -/
def connB : ClientConnection := ⟨.pipe 1⟩

/-- Every connection is idle and allows new requests. -/
def idleView : ConnectionView := ⟨fun _ => 0, fun _ => true⟩

/-- Connection `connA` has three requests outstanding, every other one a
single request; all allow new requests. -/
def busyView : ConnectionView := ⟨fun c => if c = connA then 3 else 1, fun _ => true⟩

/-- A network on which no name resolves. -/
def deadNetwork : Network := ⟨fun _ => .error .socket, fun _ => .error .socket⟩

/-- The request `GET http://x/a`. -/
def getA : Request := ⟨⟨.GET, uriA⟩, ⟨""⟩⟩

/-- A string-to-URI conversion that yields `http://x` for every string. -/
def parseX (_ : String) : URI := keyX

/-- A `URI::transform` for absolute references: the reference itself. -/
def transformAbsolute (_ reference : URI) : URI := reference

/-! ## Expected request lines -/

/-- The `viaProxy` flags of the passes of the retry loop in which a
connection was obtained, in order: the loop goes on after a pass only when
that pass is retried. -/
def dispatchedPasses : List Attempt → List Bool
  | [] => []
  | .noConnection _ :: _ => []
  | .connection conn viaProxy reply :: rest =>
      viaProxy ::
        (if (Attempt.connection conn viaProxy reply).retried then dispatchedPasses rest
         else [])

/-- A URI without its scheme and without the host of its authority. -/
def originForm (uri : URI) : URI :=
  { uri with scheme := none, authority := { uri.authority with host := none } }

/-- The request `CONNECT` with `Host: x:443` and the request-line URI
`http://x/a`. -/
def connectX : Request := ⟨⟨.CONNECT, uriA⟩, ⟨"x:443"⟩⟩

/-- The request `GET http://x/a` sent with `Host: y`. -/
def getAHostY : Request := ⟨⟨.GET, uriA⟩, ⟨"y"⟩⟩

/-- A network on which every name resolves to two addresses, the first of
which refuses the connection. -/
def liveNetwork : Network :=
  ⟨fun _ => .ok [⟨1⟩, ⟨2⟩], fun a => if a.id = 1 then .error .socket else .ok ()⟩

/-! ## Operations on the state of the socket stream broker -/

/-- Lines 62-69: under the lock, raise when `m_cancelled` is set, else push
the socket on `m_pending`; the value is the position `it2` of the socket. -/
def SocketStreamBroker.register (s : SocketStreamBroker) (socket : Socket) :
    Except Error Nat × SocketStreamBroker :=
  if s.cancelled then (.error .aborted, s)
  else (.ok s.pending.length, { s with pending := s.pending ++ [socket] })

/-- Lines 75-76 and 79-80: `m_pending.erase(it2)` under the lock. -/
def SocketStreamBroker.erase (s : SocketStreamBroker) (it2 : Nat) : SocketStreamBroker :=
  { s with pending := s.pending.eraseIdx it2 }

/-- What a task can do to the state of a `SocketStreamBroker`: run a whole
`getStream`, register a socket, erase a registered socket, or call
`cancelPending`. -/
inductive BrokerOp where
  | getStream (net : Network) (uri : URI)
  | register (socket : Socket)
  | erase (it2 : Nat)
  | cancelPending

/-- The state after an operation. -/
def BrokerOp.apply : BrokerOp → SocketStreamBroker → SocketStreamBroker
  | .getStream net uri, s => (SocketStreamBroker.getStream net s uri).2
  | .register socket, s => (s.register socket).2
  | .erase it2, s => s.erase it2
  | .cancelPending, s => s.cancelPending


/-! ## The second critical section of `getConnection` -/

/-- The end of `getConnection` after `getStream` has answered (lines
206-245), on the pool as it is at that time: store and return the new
connection, or erase the reserved slot and raise the error again. -/
def finishDial (answer : Except Error Stream) (m : ConnectionMap) (key : URI) :
    GetResult × ConnectionMap :=
  match answer with
  | .ok stream => (.returned ⟨stream⟩ false, dialSucceeded ⟨stream⟩ m key)
  | .error e => (.raised e, dialFailed m key)

/-- A stream broker that hands out the pipes 0, 1, 2, ... one after the
other; its state is the number of the next pipe. -/
def countingBroker : StreamBroker Nat :=
  ⟨fun n _ => (.ok (.pipe n), n + 1), fun n => n⟩

/-! ## The cache with its tasks -/

/-- The cache as its tasks see it: `m_conns`; `dialing`, the key of every
task that has reserved a blank slot and is inside `getStream` (lines
203-209), holding the iterator `it` of the entry of that key; `waiting`, the
key of every task suspended in `wait()` (line 182). -/
structure CacheState where
  conns : ConnectionMap
  dialing : List URI
  waiting : List URI

/-- The state after a selection pass for `key` with outcome `r`, `waiting`
being the other waiters: the task returns, waits, or starts a dial. -/
def CacheState.after (st : CacheState) (key : URI) (r : Selection × ConnectionMap)
    (waiting : List URI) : CacheState :=
  match r.1 with
  | .found _ => ⟨r.2, st.dialing, waiting⟩
  | .wait => ⟨r.2, st.dialing, key :: waiting⟩
  | .dial => ⟨r.2, key :: st.dialing, waiting⟩

/-- One critical section of the cache.  A new call enters (lines 141-203); a
suspended task is woken and runs the selection again (lines 170-203); a task
whose dial is in flight completes it (lines 209-225 or 227-242) on the entry
of its key; `closeConnections` clears the map (lines 252-267).  After
`closeConnections` the dials that were in flight are dropped: `clear()`
invalidates the iterators they hold, and what lines 215-242 do through such
an iterator is not defined. -/
inductive CacheStep (perHost : Nat) (allowForce : Bool) : CacheState → CacheState → Prop where
  | enter (v : ConnectionView) (st : CacheState) (uri : URI) (force : Bool)
      (h : force = true → allowForce = true) :
      CacheStep perHost allowForce st
        (st.after (schemeAndAuthority uri) (enter perHost v st.conns uri force) st.waiting)
  | wake (v : ConnectionView) (st : CacheState) (key : URI) (h : key ∈ st.waiting) :
      CacheStep perHost allowForce st
        (st.after key (wake perHost v st.conns key) (st.waiting.erase key))
  | dialSucceeded (c : ClientConnection) (st : CacheState) (key : URI)
      (h : key ∈ st.dialing) :
      CacheStep perHost allowForce st
        ⟨dialSucceeded c st.conns key, st.dialing.erase key, st.waiting⟩
  | dialFailed (st : CacheState) (key : URI) (h : key ∈ st.dialing) :
      CacheStep perHost allowForce st
        ⟨dialFailed st.conns key, st.dialing.erase key, st.waiting⟩
  | closeConnections (st : CacheState) :
      CacheStep perHost allowForce st ⟨[], [], st.waiting⟩

/-- The states reachable from the empty cache with no task in it. -/
inductive CacheReachable (perHost : Nat) (allowForce : Bool) : CacheState → Prop where
  | empty : CacheReachable perHost allowForce ⟨[], [], []⟩
  | step {st st1 : CacheState} :
      CacheReachable perHost allowForce st → CacheStep perHost allowForce st st1 →
      CacheReachable perHost allowForce st1

/-- The number of blank slots in the entry of `key`, none when there is no
entry. -/
def blanksOf (m : ConnectionMap) (key : URI) : Nat :=
  ((find m key).getD []).count none

/-- The addresses on which the loop of lines 54-84 calls `connect` (line
72), in call order; the state is passed on as in `connectLoop`. -/
def connectAttempts (net : Network) : SocketStreamBroker → List Address → List Address
  | _, [] => []
  | s, a :: rest =>
      if s.cancelled then []
      else
        let it2 := s.pending.length
        let s1 : SocketStreamBroker := { s with pending := s.pending ++ [⟨a⟩] }
        match net.connect a with
        | .ok _ => [a]
        | .error _ =>
            if rest.isEmpty then [a]
            else a :: connectAttempts net { s1 with pending := s1.pending.eraseIdx it2 } rest

/-! ## Theorems: ConnectionCache -/

theorem sweepList_eq_filter (v : ConnectionView) (l : ConnectionList) :
    sweepList v l = l.filter (kept v) := by
  induction l with
  | nil => rfl
  | cons s rest ih =>
      cases s with
      | none => simp [sweepList, kept, ih]
      | some c =>
          by_cases h : v.newRequestsAllowed c <;> simp [sweepList, kept, ih, h]

theorem sweep_eq_filter (v : ConnectionView) (m : ConnectionMap) :
    sweep v m =
      (m.map (fun e => (e.1, e.2.filter (kept v)))).filter (fun e => !e.2.isEmpty) := by
  induction m with
  | nil => rfl
  | cons e rest ih =>
      obtain ⟨k, l⟩ := e
      by_cases h : (sweepList v l).isEmpty
      · have h2 : (List.filter (kept v) l).isEmpty = true := by
          rw [← sweepList_eq_filter]; exact h
        simp only [sweep, h, if_true, ih, List.map_cons, List.filter_cons, h2]
        simp
      · have h2 : (List.filter (kept v) l).isEmpty = false := by
          rw [← sweepList_eq_filter]; simpa using h
        simp only [sweep, h, ih, List.map_cons, List.filter_cons, h2, sweepList_eq_filter]
        simp

/-- C8. After the clean-up at the start of `getConnection` no entry is empty
and no slot holds a connection that refuses new requests; the pool is the old
pool in which every slot list is filtered by `kept` (blank slots and
connections that allow new requests stay, in order, under their key) and the
entries left empty are dropped. -/
theorem sweep_spec (v : ConnectionView) (m : ConnectionMap) :
    (∀ k l, (k, l) ∈ sweep v m →
      l ≠ [] ∧ (∀ c, some c ∈ l → v.newRequestsAllowed c = true) ∧
      ∃ l0, (k, l0) ∈ m ∧ l = l0.filter (kept v) ∧ l.Sublist l0) ∧
    (∀ k l0, (k, l0) ∈ m → l0.filter (kept v) ≠ [] →
      (k, l0.filter (kept v)) ∈ sweep v m) ∧
    sweep v m =
      (m.map (fun e => (e.1, e.2.filter (kept v)))).filter (fun e => !e.2.isEmpty) := by
  refine ⟨?_, ?_, sweep_eq_filter v m⟩
  · intro k l hmem
    rw [sweep_eq_filter] at hmem
    simp only [List.mem_filter, List.mem_map, Prod.exists] at hmem
    obtain ⟨⟨k0, l0, hm, heq⟩, hne⟩ := hmem
    simp only [Prod.mk.injEq] at heq
    obtain ⟨rfl, rfl⟩ := heq
    refine ⟨?_, ?_, l0, hm, rfl, List.filter_sublist l0⟩
    · intro h
      simp [h] at hne
    · intro c hc
      have := (List.mem_filter.mp hc).2
      simpa [kept] using this
  · intro k l0 hm hne
    rw [sweep_eq_filter]
    simp only [List.mem_filter, List.mem_map, Prod.exists]
    refine ⟨⟨k, l0, hm, rfl⟩, ?_⟩
    cases h : List.filter (kept v) l0 with
    | nil => exact absurd h hne
    | cons a t => simp


/-- C8 witness. A pool with a closed connection, a blank slot and an entry
that holds only a closed connection: the closed connections and the emptied
entry are gone, the blank slot stays under its key. -/
theorem sweep_spec_witness :
    (keyX, [none]) ∈ sweep ⟨fun _ => 0, fun c => decide (c = connB)⟩
      [(keyX, [some connA, none]), (uriA, [some connA])] ∧
    sweep ⟨fun _ => 0, fun c => decide (c = connB)⟩
      [(keyX, [some connA, none]), (uriA, [some connA])] = [(keyX, [none])] :=
  have h := sweep_spec ⟨fun _ => 0, fun c => decide (c = connB)⟩
    [(keyX, [some connA, none]), (uriA, [some connA])]
  ⟨h.2.1 keyX [some connA, none] (by decide) (by decide), h.2.2.trans (by decide)⟩

theorem least_iff (v : ConnectionView) (a b : Option ClientConnection) :
    least v a b = true ↔ load v a < load v b := by
  cases a <;> cases b <;> simp [least, load]

theorem minElementFrom_spec {α β : Type} [LinearOrder β] (comp : α → α → Bool)
    (f : α → β) (hcomp : ∀ x y, comp x y = true ↔ f x < f y) :
    ∀ (xs pre : List α) (si : Nat) (s : α),
      pre[si]? = some s →
      (∀ y ∈ pre, f s ≤ f y) →
      (∀ j y, j < si → pre[j]? = some y → f s < f y) →
      (pre ++ xs)[(minElementFrom comp si s pre.length xs).1]? =
          some (minElementFrom comp si s pre.length xs).2 ∧
        (∀ y ∈ pre ++ xs, f (minElementFrom comp si s pre.length xs).2 ≤ f y) ∧
        (∀ j y, j < (minElementFrom comp si s pre.length xs).1 → (pre ++ xs)[j]? = some y →
          f (minElementFrom comp si s pre.length xs).2 < f y) := by
  intro xs
  induction xs with
  | nil =>
      intro pre si s h1 h2 h3
      simpa [minElementFrom] using ⟨h1, h2, h3⟩
  | cons x xs ih =>
      intro pre si s h1 h2 h3
      have hsi : si < pre.length := by
        by_contra hc
        rw [List.getElem?_eq_none (by omega)] at h1
        cases h1
      have hlen : (pre ++ [x]).length = pre.length + 1 := by simp
      have happ : pre ++ x :: xs = (pre ++ [x]) ++ xs := by simp
      by_cases hc : comp x s = true
      · have hlt : f x < f s := (hcomp x s).1 hc
        have := ih (pre ++ [x]) pre.length x (by simp)
          (by
            intro y hy
            rcases List.mem_append.1 hy with hy | hy
            · exact le_of_lt (lt_of_lt_of_le hlt (h2 y hy))
            · simp at hy; subst hy; exact le_refl _)
          (by
            intro j y hj hy
            rw [List.getElem?_append_left hj] at hy
            exact lt_of_lt_of_le hlt (h2 y (List.getElem?_mem hy)))
        rw [hlen, ← happ] at this
        simpa [minElementFrom, hc] using this
      · have hle : f s ≤ f x := by
          by_contra hn
          exact hc ((hcomp x s).2 (lt_of_not_le hn))
        have := ih (pre ++ [x]) si s
          (by rw [List.getElem?_append_left hsi]; exact h1)
          (by
            intro y hy
            rcases List.mem_append.1 hy with hy | hy
            · exact h2 y hy
            · simp at hy; subst hy; exact hle)
          (by
            intro j y hj hy
            rw [List.getElem?_append_left (by omega)] at hy
            exact h3 j y hj hy)
        rw [hlen, ← happ] at this
        simpa [minElementFrom, hc] using this

theorem minElement_spec {α β : Type} [LinearOrder β] (comp : α → α → Bool) (f : α → β)
    (hcomp : ∀ x y, comp x y = true ↔ f x < f y) (l : List α) (hne : l ≠ []) :
    ∃ i r, minElement comp l = some (i, r) ∧ l[i]? = some r ∧
      (∀ y ∈ l, f r ≤ f y) ∧ (∀ j y, j < i → l[j]? = some y → f r < f y) := by
  cases l with
  | nil => exact absurd rfl hne
  | cons x xs =>
      have := minElementFrom_spec comp f hcomp xs [x] 0 x (by simp)
        (by intro y hy; simp at hy; subst hy; exact le_refl _)
        (by intro j y hj; omega)
      exact ⟨_, _, rfl, by simpa using this⟩

/-- C5. For `forceNewConnection = false`, when after the clean-up the entry
of the key holds at least `connectionsPerHost` slots and a completed
connection, `getConnection` returns `(c, false)` where `c` is held by a slot
of that entry, has the least `outstandingRequests()` among its connections
and is the first such slot in list order; no dial is made and the pool is the
pool after the clean-up. -/
theorem getConnection_least_loaded {σ : Type} (perHost : Nat) (v : ConnectionView)
    (b : StreamBroker σ) (s : σ) (m : ConnectionMap) (uri : URI) (l : ConnectionList)
    (hfind : find (sweep v m) (schemeAndAuthority uri) = some l)
    (hfull : perHost ≤ l.length) (hready : ∃ c, some c ∈ l) :
    ∃ (i : Nat) (c : ClientConnection), l[i]? = some (some c) ∧
      (∀ (j : Nat) (d : ClientConnection), l[j]? = some (some d) →
        v.outstandingRequests c ≤ v.outstandingRequests d) ∧
      (∀ (j : Nat) (d : ClientConnection), j < i → l[j]? = some (some d) →
        v.outstandingRequests c < v.outstandingRequests d) ∧
      (getConnection perHost v b s m uri false).result = .returned c false ∧
      (getConnection perHost v b s m uri false).conns = sweep v m ∧
      (getConnection perHost v b s m uri false).dials = [] ∧
      (getConnection perHost v b s m uri false).broker = s := by
  obtain ⟨c0, hc0⟩ := hready
  have hne : l ≠ [] := List.ne_nil_of_mem hc0
  obtain ⟨i, r, hmin, hget, hle, hlt⟩ :=
    minElement_spec (least v) (load v) (least_iff v) l hne
  have hr : ∃ c, r = some c := by
    cases r with
    | some c => exact ⟨c, rfl⟩
    | none =>
        have := hle (some c0) hc0
        simp [load] at this
  obtain ⟨c, rfl⟩ := hr
  have hemp : l.isEmpty = false := by
    cases l with
    | nil => exact absurd rfl hne
    | cons a t => rfl
  have hsel : select perHost v (sweep v m) (schemeAndAuthority uri) = .found c := by
    simp [select, hfind, hemp, hfull, hmin]
  refine ⟨i, c, hget, ?_, ?_, ?_⟩
  · intro j d hj
    have := hle (some d) (List.getElem?_mem hj)
    simpa [load] using this
  · intro j d hji hj
    have := hlt j (some d) hji hj
    simpa [load] using this
  · simp [getConnection, enter, hsel]

/-! ### Lemmas on the pool operations -/

theorem find_pushPending_self (m : ConnectionMap) (key : URI) :
    find (pushPending m key) key = some ((find m key).getD [] ++ [none]) := by
  induction m with
  | nil => simp [pushPending, find]
  | cons e rest ih =>
      obtain ⟨k, l⟩ := e
      by_cases h : k = key
      · simp [pushPending, find, h]
      · simp [pushPending, find, h, ih]

theorem find_pushPending_ne (m : ConnectionMap) (key k : URI) (hk : k ≠ key) :
    find (pushPending m key) k = find m k := by
  induction m with
  | nil =>
      have : ¬ key = k := fun h => hk h.symm
      simp [pushPending, find, this]
  | cons e rest ih =>
      obtain ⟨k0, l⟩ := e
      by_cases h : k0 = key
      · subst h
        have : ¬ k0 = k := fun h => hk h.symm
        simp [pushPending, find, this]
      · by_cases h2 : k0 = k
        · subst h2
          simp [pushPending, find, h]
        · simp [pushPending, find, h, h2, ih]

theorem find_dialSucceeded_self (c : ClientConnection) (m : ConnectionMap) (key : URI) :
    find (dialSucceeded c m key) key = (find m key).map (assignFirstBlank c) := by
  induction m with
  | nil => simp [dialSucceeded, find]
  | cons e rest ih =>
      obtain ⟨k, l⟩ := e
      by_cases h : k = key
      · simp [dialSucceeded, find, h]
      · simp [dialSucceeded, find, h, ih]

theorem find_dialSucceeded_ne (c : ClientConnection) (m : ConnectionMap) (key k : URI)
    (hk : k ≠ key) : find (dialSucceeded c m key) k = find m k := by
  induction m with
  | nil => simp [dialSucceeded, find]
  | cons e rest ih =>
      obtain ⟨k0, l⟩ := e
      by_cases h : k0 = key
      · subst h
        have : ¬ k0 = k := fun h => hk h.symm
        simp [dialSucceeded, find, this]
      · by_cases h2 : k0 = k
        · subst h2
          simp [dialSucceeded, find, h]
        · simp [dialSucceeded, find, h, h2, ih]

theorem find_dialFailed_ne (m : ConnectionMap) (key k : URI) (hk : k ≠ key) :
    find (dialFailed m key) k = find m k := by
  induction m with
  | nil => simp [dialFailed, find]
  | cons e rest ih =>
      obtain ⟨k0, l⟩ := e
      by_cases h : k0 = key
      · subst h
        have : ¬ k0 = k := fun h => hk h.symm
        by_cases h3 : (eraseFirstBlank l).isEmpty <;> simp [dialFailed, find, this, h3]
      · by_cases h2 : k0 = k
        · subst h2
          simp [dialFailed, find, h]
        · simp [dialFailed, find, h, h2, ih]

theorem find_dialFailed_self (m : ConnectionMap) (key : URI) (l : ConnectionList)
    (hfind : find m key = some l) :
    (eraseFirstBlank l ≠ [] → find (dialFailed m key) key = some (eraseFirstBlank l)) ∧
    (eraseFirstBlank l = [] → dialFailed m key = m.eraseP (fun e => decide (e.1 = key))) := by
  induction m with
  | nil => simp [find] at hfind
  | cons e rest ih =>
      obtain ⟨k0, l0⟩ := e
      by_cases h : k0 = key
      · subst h
        simp only [find, if_true] at hfind
        cases hfind
        constructor
        · intro hne
          simp [dialFailed, find, hne]
        · intro he
          simp [dialFailed, he, List.eraseP_cons]
      · simp only [find, h, if_false] at hfind
        obtain ⟨ih1, ih2⟩ := ih hfind
        constructor
        · intro hne
          simp [dialFailed, find, h, ih1 hne]
        · intro he
          simp [dialFailed, h, ih2 he, List.eraseP_cons]

theorem firstBlank_split (l : ConnectionList) (h : none ∈ l) :
    ∃ pre post, l = pre ++ none :: post ∧ none ∉ pre ∧
      (∀ c, assignFirstBlank c l = pre ++ some c :: post) ∧
      eraseFirstBlank l = pre ++ post := by
  induction l with
  | nil => simp at h
  | cons a t ih =>
      cases a with
      | none => exact ⟨[], t, rfl, by simp, fun c => rfl, rfl⟩
      | some d =>
          have ht : none ∈ t := by simpa using h
          obtain ⟨pre, post, h1, h2, h3, h4⟩ := ih ht
          refine ⟨some d :: pre, post, by simp [h1], by simpa using h2, ?_, ?_⟩
          · intro c
            simp [assignFirstBlank, h3 c]
          · simp [eraseFirstBlank, h4]

theorem all_blank_append (rest : ConnectionList)
    (h : rest.all (fun s => s.isNone) = true) : rest ++ [none] = none :: rest := by
  induction rest with
  | nil => rfl
  | cons a t ih =>
      simp only [List.all_cons, Bool.and_eq_true] at h
      cases a with
      | some d => simp at h
      | none => simp [ih h.2]

theorem blanksLast_of_all (rest : ConnectionList)
    (h : rest.all (fun s => s.isNone) = true) : blanksLast rest = true := by
  cases rest with
  | nil => rfl
  | cons a t =>
      simp only [List.all_cons, Bool.and_eq_true] at h
      cases a with
      | some d => simp at h
      | none => simpa [blanksLast] using h.2

theorem eraseFirstBlank_append_blank (l : ConnectionList) (h : blanksLast l = true) :
    eraseFirstBlank (l ++ [none]) = l := by
  induction l with
  | nil => rfl
  | cons a t ih =>
      cases a with
      | some d =>
          simp only [blanksLast] at h
          simp [eraseFirstBlank, ih h]
      | none =>
          simp only [blanksLast] at h
          simp [eraseFirstBlank, all_blank_append t h]

theorem blanksLast_filter (v : ConnectionView) (l : ConnectionList) (h : blanksLast l = true) :
    blanksLast (l.filter (kept v)) = true := by
  induction l with
  | nil => rfl
  | cons a t ih =>
      cases a with
      | some d =>
          simp only [blanksLast] at h
          by_cases hk : kept v (some d) = true
          · simp [List.filter_cons, hk, blanksLast, ih h]
          · simp [List.filter_cons, hk, ih h]
      | none =>
          simp only [blanksLast] at h
          have hk : kept v none = true := rfl
          simp only [List.filter_cons, hk, if_true, blanksLast]
          rw [List.all_eq_true] at h ⊢
          intro x hx
          exact h x (List.mem_filter.1 hx).1

theorem blanksLast_append_blank (l : ConnectionList) (h : blanksLast l = true) :
    blanksLast (l ++ [none]) = true := by
  induction l with
  | nil => rfl
  | cons a t ih =>
      cases a with
      | some d =>
          simp only [blanksLast] at h
          simp [blanksLast, ih h]
      | none =>
          simp only [blanksLast] at h
          simpa [blanksLast] using h

theorem blanksLast_assign (c : ClientConnection) (l : ConnectionList)
    (h : blanksLast l = true) : blanksLast (assignFirstBlank c l) = true := by
  induction l with
  | nil => rfl
  | cons a t ih =>
      cases a with
      | some d =>
          simp only [blanksLast] at h
          simp [assignFirstBlank, blanksLast, ih h]
      | none =>
          simp only [blanksLast] at h
          simp [assignFirstBlank, blanksLast, blanksLast_of_all t h]

theorem blanksLast_erase (l : ConnectionList) (h : blanksLast l = true) :
    blanksLast (eraseFirstBlank l) = true := by
  induction l with
  | nil => rfl
  | cons a t ih =>
      cases a with
      | some d =>
          simp only [blanksLast] at h
          simp [eraseFirstBlank, blanksLast, ih h]
      | none =>
          simp only [blanksLast] at h
          simp [eraseFirstBlank, blanksLast_of_all t h]

theorem mem_of_find (m : ConnectionMap) (key : URI) (l : ConnectionList)
    (h : find m key = some l) : (key, l) ∈ m := by
  induction m with
  | nil => simp [find] at h
  | cons e rest ih =>
      obtain ⟨k, l0⟩ := e
      by_cases hk : k = key
      · subst hk
        simp only [find, if_true] at h
        cases h
        simp
      · simp only [find, hk, if_false] at h
        exact List.mem_cons_of_mem _ (ih h)

theorem sweep_forall (P : ConnectionList → Prop) (v : ConnectionView) (m : ConnectionMap)
    (hm : ∀ e ∈ m, P e.2) (hP : ∀ l, P l → P (l.filter (kept v))) :
    ∀ e ∈ sweep v m, P e.2 ∧ e.2 ≠ [] := by
  intro e he
  rw [sweep_eq_filter] at he
  simp only [List.mem_filter, List.mem_map] at he
  obtain ⟨⟨e0, he0, rfl⟩, hne⟩ := he
  refine ⟨hP _ (hm e0 he0), ?_⟩
  intro h
  have h2 : List.filter (kept v) e0.2 = [] := h
  simp [h2] at hne

theorem pushPending_forall (P : ConnectionList → Prop) (m : ConnectionMap) (key : URI)
    (hm : ∀ e ∈ m, P e.2) (hnew : P [none])
    (hadd : ∀ l, find m key = some l → P (l ++ [none])) :
    ∀ e ∈ pushPending m key, P e.2 := by
  induction m with
  | nil =>
      intro e he
      simp [pushPending] at he
      subst he
      exact hnew
  | cons e0 rest ih =>
      obtain ⟨k, l⟩ := e0
      by_cases hk : k = key
      · subst hk
        intro e he
        simp only [pushPending, if_true, List.mem_cons] at he
        rcases he with he | he
        · subst he
          exact hadd l (by simp [find])
        · exact hm e (List.mem_cons_of_mem _ he)
      · intro e he
        simp only [pushPending, hk, if_false, List.mem_cons] at he
        rcases he with he | he
        · subst he
          exact hm _ (List.mem_cons_self _ _)
        · exact ih (fun e he => hm e (List.mem_cons_of_mem _ he))
            (fun l hl => hadd l (by simp [find, hk, hl])) e he

theorem dialSucceeded_forall (P : ConnectionList → Prop) (c : ClientConnection)
    (m : ConnectionMap) (key : URI)
    (hm : ∀ e ∈ m, P e.2) (hP : ∀ l, P l → P (assignFirstBlank c l)) :
    ∀ e ∈ dialSucceeded c m key, P e.2 := by
  induction m with
  | nil => intro e he; simp [dialSucceeded] at he
  | cons e0 rest ih =>
      obtain ⟨k, l⟩ := e0
      have hl : P l := hm (k, l) (List.mem_cons_self _ _)
      have hrest : ∀ e ∈ rest, P e.2 := fun e he => hm e (List.mem_cons_of_mem _ he)
      by_cases hk : k = key
      · intro e he
        simp only [dialSucceeded, hk, if_true, List.mem_cons] at he
        rcases he with he | he
        · subst he
          exact hP l hl
        · exact hrest e he
      · intro e he
        simp only [dialSucceeded, hk, if_false, List.mem_cons] at he
        rcases he with he | he
        · subst he
          exact hl
        · exact ih hrest e he

theorem dialFailed_forall (P : ConnectionList → Prop) (m : ConnectionMap) (key : URI)
    (hm : ∀ e ∈ m, P e.2) (hP : ∀ l, P l → P (eraseFirstBlank l)) :
    ∀ e ∈ dialFailed m key, P e.2 := by
  induction m with
  | nil => intro e he; simp [dialFailed] at he
  | cons e0 rest ih =>
      obtain ⟨k, l⟩ := e0
      have hl : P l := hm (k, l) (List.mem_cons_self _ _)
      have hrest : ∀ e ∈ rest, P e.2 := fun e he => hm e (List.mem_cons_of_mem _ he)
      by_cases hk : k = key
      · subst hk
        by_cases hemp : (eraseFirstBlank l).isEmpty = true
        · intro e he
          have he2 : e ∈ rest := by simpa [dialFailed, hemp] using he
          exact hrest e he2
        · intro e he
          have he2 : e = (k, eraseFirstBlank l) ∨ e ∈ rest := by
            simpa [dialFailed, hemp] using he
          rcases he2 with he | he
          · subst he
            exact hP l hl
          · exact hrest e he
      · intro e he
        simp only [dialFailed, hk, if_false, List.mem_cons] at he
        rcases he with he | he
        · subst he
          exact hl
        · exact ih hrest e he

theorem select_dial (perHost : Nat) (v : ConnectionView) (m : ConnectionMap) (key : URI)
    (hpos : 1 ≤ perHost) (h : select perHost v m key = .dial) :
    ∀ l, find m key = some l → l.length < perHost := by
  intro l hl
  by_contra hc
  have hfull : perHost ≤ l.length := by omega
  cases l with
  | nil => simp at hfull; omega
  | cons a t =>
      simp only [select, hl, List.isEmpty_cons, Bool.not_false, Bool.true_and, hfull,
        decide_True, if_true, minElement] at h
      generalize minElementFrom (least v) 0 a 1 t = r at h
      obtain ⟨i, x⟩ := r
      cases x <;> simp at h

theorem enter_cases (perHost : Nat) (v : ConnectionView) (m : ConnectionMap) (uri : URI)
    (force : Bool) :
    ((enter perHost v m uri force).1 ≠ .dial ∧ (enter perHost v m uri force).2 = sweep v m) ∨
    ((enter perHost v m uri force).1 = .dial ∧
      (enter perHost v m uri force).2 = pushPending (sweep v m) (schemeAndAuthority uri) ∧
      (force = true ∨ select perHost v (sweep v m) (schemeAndAuthority uri) = .dial)) := by
  cases force with
  | true => right; simp [enter]
  | false =>
      cases hs : select perHost v (sweep v m) (schemeAndAuthority uri) with
      | found c => left; simp [enter, hs]
      | wait => left; simp [enter, hs]
      | dial => right; simp [enter, hs]

theorem wake_cases (perHost : Nat) (v : ConnectionView) (m : ConnectionMap) (key : URI) :
    (wake perHost v m key).2 = m ∨
    ((wake perHost v m key).2 = pushPending m key ∧ select perHost v m key = .dial) := by
  cases hs : select perHost v m key with
  | found c => left; simp [wake, hs]
  | wait => left; simp [wake, hs]
  | dial => right; simp [wake, hs]

theorem reachable_blanksLast (perHost : Nat) (allowForce : Bool) (m : ConnectionMap)
    (h : Reachable perHost allowForce m) : ∀ e ∈ m, blanksLast e.2 = true := by
  induction h with
  | empty => intro e he; simp at he
  | @step m0 m1 _ hstep ih =>
      cases hstep with
      | enter v _ uri force hf =>
          have hsw := sweep_forall (fun l => blanksLast l = true) v m0 ih
            (fun l hl => blanksLast_filter v l hl)
          rcases enter_cases perHost v m0 uri force with ⟨_, h2⟩ | ⟨_, h2, _⟩
          · rw [h2]; exact fun e he => (hsw e he).1
          · rw [h2]
            exact pushPending_forall (fun l => blanksLast l = true) _ _
              (fun e he => (hsw e he).1) rfl
              (fun l hl => blanksLast_append_blank l (hsw _ (mem_of_find _ _ _ hl)).1)
      | wake v _ key =>
          rcases wake_cases perHost v m0 key with h2 | ⟨h2, _⟩
          · rw [h2]; exact ih
          · rw [h2]
            exact pushPending_forall (fun l => blanksLast l = true) _ _ ih rfl
              (fun l hl => blanksLast_append_blank l (ih _ (mem_of_find _ _ _ hl)))
      | dialSucceeded c _ key =>
          exact dialSucceeded_forall (fun l => blanksLast l = true) c m0 key ih
            (fun l hl => blanksLast_assign c l hl)
      | dialFailed _ key =>
          exact dialFailed_forall (fun l => blanksLast l = true) m0 key ih
            (fun l hl => blanksLast_erase l hl)
      | closeConnections => intro e he; simp at he

theorem length_assignFirstBlank (c : ClientConnection) (l : ConnectionList) :
    (assignFirstBlank c l).length = l.length := by
  induction l with
  | nil => rfl
  | cons a t ih => cases a <;> simp [assignFirstBlank, ih]

theorem length_eraseFirstBlank_le (l : ConnectionList) :
    (eraseFirstBlank l).length ≤ l.length := by
  induction l with
  | nil => simp [eraseFirstBlank]
  | cons a t ih => cases a <;> simp [eraseFirstBlank, ih]

/-- With `connectionsPerHost ≥ 1` and no call with `forceNewConnection =
true`, every pool reachable by `Step` holds at most `connectionsPerHost`
slots under every key. -/
theorem reachable_length_le (perHost : Nat) (m : ConnectionMap) (hpos : 1 ≤ perHost)
    (h : Reachable perHost false m) : ∀ k l, (k, l) ∈ m → l.length ≤ perHost := by
  suffices hs : ∀ e ∈ m, e.2.length ≤ perHost from fun k l hkl => hs (k, l) hkl
  induction h with
  | empty => intro e he; simp at he
  | @step m0 m1 _ hstep ih =>
      cases hstep with
      | enter v _ uri force hf =>
          have hsw := sweep_forall (fun l => l.length ≤ perHost) v m0 ih
            (fun l hl => le_trans (List.length_filter_le _ _) hl)
          rcases enter_cases perHost v m0 uri force with ⟨_, h2⟩ | ⟨_, h2, hsel⟩
          · rw [h2]; exact fun e he => (hsw e he).1
          · rw [h2]
            have hsel2 : select perHost v (sweep v m0) (schemeAndAuthority uri) = .dial := by
              rcases hsel with hsel | hsel
              · exact absurd (hf hsel) (by simp)
              · exact hsel
            exact pushPending_forall (fun l => l.length ≤ perHost) _ _
              (fun e he => (hsw e he).1) (by simpa using hpos)
              (fun l hl => by
                have := select_dial perHost v _ _ hpos hsel2 l hl
                simp only [List.length_append, List.length_singleton]
                omega)
      | wake v _ key =>
          rcases wake_cases perHost v m0 key with h2 | ⟨h2, hsel⟩
          · rw [h2]; exact ih
          · rw [h2]
            exact pushPending_forall (fun l => l.length ≤ perHost) _ _ ih (by simpa using hpos)
              (fun l hl => by
                have := select_dial perHost v _ _ hpos hsel l hl
                simp only [List.length_append, List.length_singleton]
                omega)
      | dialSucceeded c _ key =>
          exact dialSucceeded_forall (fun l => l.length ≤ perHost) c m0 key ih
            (fun l hl => by simpa [length_assignFirstBlank] using hl)
      | dialFailed _ key =>
          exact dialFailed_forall (fun l => l.length ≤ perHost) m0 key ih
            (fun l hl => le_trans (length_eraseFirstBlank_le l) hl)
      | closeConnections => intro e he; simp at he

/-- C5 witness. With two connections under `http://x` and a bound of two,
the call makes no dial and returns a connection that is not more loaded than
the second one. -/
theorem getConnection_least_loaded_witness :
    find (sweep busyView [(keyX, [some connA, some connB])]) (schemeAndAuthority uriA) =
      some [some connA, some connB] ∧
    2 ≤ [some connA, some connB].length ∧
    (getConnection 2 busyView (socketStreamBroker deadNetwork) ⟨false, []⟩
      [(keyX, [some connA, some connB])] uriA false).dials = [] ∧
    ∃ c, (getConnection 2 busyView (socketStreamBroker deadNetwork) ⟨false, []⟩
        [(keyX, [some connA, some connB])] uriA false).result = .returned c false ∧
      busyView.outstandingRequests c ≤ busyView.outstandingRequests connB := by
  obtain ⟨_, c, _, h2, _, h4, _, h6, _⟩ :=
    getConnection_least_loaded 2 busyView (socketStreamBroker deadNetwork) ⟨false, []⟩
      [(keyX, [some connA, some connB])] uriA [some connA, some connB]
      (by decide) (by decide) ⟨connA, by simp⟩
  exact ⟨by decide, by decide, h6, c, h4, h2 1 connB (by decide)⟩

theorem dialFailed_pushPending (m : ConnectionMap) (key : URI)
    (hm : ∀ e ∈ m, blanksLast e.2 = true ∧ e.2 ≠ []) :
    dialFailed (pushPending m key) key = m := by
  induction m with
  | nil => simp [pushPending, dialFailed, eraseFirstBlank]
  | cons e rest ih =>
      obtain ⟨k, l⟩ := e
      have hl := hm (k, l) (List.mem_cons_self _ _)
      by_cases hk : k = key
      · subst hk
        have h1 : eraseFirstBlank (l ++ [none]) = l := eraseFirstBlank_append_blank l hl.1
        have h2 : l.isEmpty = false := by
          cases l with
          | nil => exact absurd rfl hl.2
          | cons a t => rfl
        simp [pushPending, dialFailed, h1, h2]
      · have := ih (fun e he => hm e (List.mem_cons_of_mem _ he))
        simp [pushPending, dialFailed, hk, this]

/-- C6. A `getConnection` call that dials, at once or after a wake-up,
appends one blank slot to the entry of its key and changes no other entry; a
completed dial fills (success) or erases (failure) the first blank slot of
that entry, erasing the entry when it is left empty; run alone on a
reachable pool, a successful call returns the new connection, held by the
first blank slot, and a failed call raises the error of the stream broker and
leaves the pool as it was after the clean-up. -/
theorem dial_pending_accounting {σ : Type} (perHost : Nat) (v : ConnectionView)
    (b : StreamBroker σ) (s : σ) (m : ConnectionMap) (uri : URI) (force : Bool)
    (hreach : Reachable perHost true m)
    (hdial : (enter perHost v m uri force).1 = .dial) :
    (find (enter perHost v m uri force).2 (schemeAndAuthority uri) =
        some ((find (sweep v m) (schemeAndAuthority uri)).getD [] ++ [none]) ∧
      ∀ k, k ≠ schemeAndAuthority uri →
        find (enter perHost v m uri force).2 k = find (sweep v m) k) ∧
    (∀ (m3 : ConnectionMap) (key : URI), (wake perHost v m3 key).1 = .dial →
      find (wake perHost v m3 key).2 key = some ((find m3 key).getD [] ++ [none]) ∧
      ∀ k, k ≠ key → find (wake perHost v m3 key).2 k = find m3 k) ∧
    (∀ (m3 : ConnectionMap) (l : ConnectionList) (c : ClientConnection),
      find m3 (schemeAndAuthority uri) = some l → none ∈ l →
      ∃ pre post, l = pre ++ none :: post ∧ none ∉ pre ∧
        find (dialSucceeded c m3 (schemeAndAuthority uri)) (schemeAndAuthority uri) =
          some (pre ++ some c :: post) ∧
        (∀ k, k ≠ schemeAndAuthority uri →
          find (dialSucceeded c m3 (schemeAndAuthority uri)) k = find m3 k) ∧
        (pre ++ post ≠ [] →
          find (dialFailed m3 (schemeAndAuthority uri)) (schemeAndAuthority uri) =
            some (pre ++ post)) ∧
        (pre ++ post = [] →
          dialFailed m3 (schemeAndAuthority uri) =
            m3.eraseP (fun e => decide (e.1 = schemeAndAuthority uri))) ∧
        (∀ k, k ≠ schemeAndAuthority uri →
          find (dialFailed m3 (schemeAndAuthority uri)) k = find m3 k)) ∧
    (∀ stream s1, b.getStream s (schemeAndAuthority uri) = (.ok stream, s1) →
      (getConnection perHost v b s m uri force).result = .returned ⟨stream⟩ false ∧
      (getConnection perHost v b s m uri force).dials = [schemeAndAuthority uri] ∧
      ∃ pre post,
        (find (sweep v m) (schemeAndAuthority uri)).getD [] ++ [none] = pre ++ none :: post ∧
        none ∉ pre ∧
        find (getConnection perHost v b s m uri force).conns (schemeAndAuthority uri) =
          some (pre ++ some ⟨stream⟩ :: post) ∧
        ∀ k, k ≠ schemeAndAuthority uri →
          find (getConnection perHost v b s m uri force).conns k = find (sweep v m) k) ∧
    (∀ e s1, b.getStream s (schemeAndAuthority uri) = (.error e, s1) →
      (getConnection perHost v b s m uri force).result = .raised e ∧
      (getConnection perHost v b s m uri force).dials = [schemeAndAuthority uri] ∧
      (getConnection perHost v b s m uri force).conns = sweep v m) := by
  have h2 : (enter perHost v m uri force).2 = pushPending (sweep v m) (schemeAndAuthority uri) := by
    rcases enter_cases perHost v m uri force with ⟨h1, _⟩ | ⟨_, h2, _⟩
    · exact absurd hdial h1
    · exact h2
  have heq : enter perHost v m uri force =
      (.dial, pushPending (sweep v m) (schemeAndAuthority uri)) := Prod.ext hdial h2
  have hsw := sweep_forall (fun l => blanksLast l = true) v m
    (reachable_blanksLast perHost true m hreach) (fun l hl => blanksLast_filter v l hl)
  refine ⟨⟨?_, ?_⟩, ?_, ?_, ?_, ?_⟩
  · rw [h2]; exact find_pushPending_self _ _
  · intro k hk
    rw [h2]; exact find_pushPending_ne _ _ _ hk
  · intro m3 key hw
    have hw2 : (wake perHost v m3 key).2 = pushPending m3 key := by
      cases hs : select perHost v m3 key with
      | found c => simp [wake, hs] at hw
      | wait => simp [wake, hs] at hw
      | dial => simp [wake, hs]
    rw [hw2]
    exact ⟨find_pushPending_self _ _, fun k hk => find_pushPending_ne _ _ _ hk⟩
  · intro m3 l c hfind hmem
    obtain ⟨pre, post, h1, hpre, hassign, herase⟩ := firstBlank_split l hmem
    obtain ⟨hf1, hf2⟩ := find_dialFailed_self m3 _ l hfind
    refine ⟨pre, post, h1, hpre, ?_, ?_, ?_, ?_, ?_⟩
    · rw [find_dialSucceeded_self, hfind, Option.map_some', hassign]
    · intro k hk
      exact find_dialSucceeded_ne c m3 _ k hk
    · intro hne
      rw [← herase]
      exact hf1 (by rw [herase]; exact hne)
    · intro he
      exact hf2 (by rw [herase]; exact he)
    · intro k hk
      exact find_dialFailed_ne m3 _ k hk
  · intro stream s1 hst
    have hmem : none ∈ (find (sweep v m) (schemeAndAuthority uri)).getD [] ++ [none] := by simp
    obtain ⟨pre, post, h1, hpre, hassign, _⟩ := firstBlank_split _ hmem
    refine ⟨by simp [getConnection, heq, hst], by simp [getConnection, heq, hst],
      pre, post, h1, hpre, ?_, ?_⟩
    · have : (getConnection perHost v b s m uri force).conns =
          dialSucceeded ⟨stream⟩ (pushPending (sweep v m) (schemeAndAuthority uri))
            (schemeAndAuthority uri) := by simp [getConnection, heq, hst]
      rw [this, find_dialSucceeded_self, find_pushPending_self, Option.map_some', hassign]
    · intro k hk
      have : (getConnection perHost v b s m uri force).conns =
          dialSucceeded ⟨stream⟩ (pushPending (sweep v m) (schemeAndAuthority uri))
            (schemeAndAuthority uri) := by simp [getConnection, heq, hst]
      rw [this, find_dialSucceeded_ne _ _ _ _ hk, find_pushPending_ne _ _ _ hk]
  · intro e s1 hst
    refine ⟨by simp [getConnection, heq, hst], by simp [getConnection, heq, hst], ?_⟩
    have : (getConnection perHost v b s m uri force).conns =
        dialFailed (pushPending (sweep v m) (schemeAndAuthority uri))
          (schemeAndAuthority uri) := by simp [getConnection, heq, hst]
    rw [this]
    exact dialFailed_pushPending _ _ hsw

/-- C6 witness. One connection under `http://x`, a bound of two and a
network on which no name resolves: the call dials, raises the socket error of
the stream broker and leaves the pool as it was. -/
theorem dial_pending_accounting_witness :
    Reachable 2 true [(keyX, [some connA])] ∧
    (enter 2 idleView [(keyX, [some connA])] uriA false).1 = .dial ∧
    (getConnection 2 idleView (socketStreamBroker deadNetwork) ⟨false, []⟩
      [(keyX, [some connA])] uriA false).result = .raised .socket ∧
    (getConnection 2 idleView (socketStreamBroker deadNetwork) ⟨false, []⟩
      [(keyX, [some connA])] uriA false).conns = sweep idleView [(keyX, [some connA])] :=
  have hreach : Reachable 2 true [(keyX, [some connA])] :=
    .step (.step .empty (.enter idleView [] uriA false (fun h => by cases h)))
      (.dialSucceeded connA _ keyX)
  have hfail := (dial_pending_accounting 2 idleView (socketStreamBroker deadNetwork)
    ⟨false, []⟩ [(keyX, [some connA])] uriA false hreach (by decide)).2.2.2.2
      .socket ⟨false, []⟩ (by decide)
  ⟨hreach, by decide, hfail.1, hfail.2.2⟩

theorem getConnection_empty_aborted {σ : Type} (perHost : Nat) (v : ConnectionView)
    (b : StreamBroker σ) (s : σ) (uri : URI) (force : Bool)
    (h : (b.getStream s (schemeAndAuthority uri)).1 = .error .aborted) :
    (getConnection perHost v b s [] uri force).result = .raised .aborted ∧
    (getConnection perHost v b s [] uri force).conns = [] ∧
    (getConnection perHost v b s [] uri force).broker =
      (b.getStream s (schemeAndAuthority uri)).2 := by
  have hent : enter perHost v [] uri force = (.dial, [(schemeAndAuthority uri, [none])]) := by
    cases force <;> simp [enter, sweep, select, find, pushPending]
  cases hg : b.getStream s (schemeAndAuthority uri) with
  | mk r s1 =>
      rw [hg] at h
      simp only at h
      subst h
      simp [getConnection, hent, hg, dialFailed, eraseFirstBlank]

/-- C7. `closeConnections` leaves the map empty, and when `cancelPending`
latches the stream broker (every later `getStream` fails with `aborted`),
every `getConnection` call made afterwards, for any URI and either value of
`forceNewConnection`, raises `aborted` and leaves the map empty. -/
theorem closeConnections_then_aborted {σ : Type} (perHost : Nat) (b : StreamBroker σ)
    (latched : σ → Prop)
    (hcancel : ∀ s, latched (b.cancelPending s))
    (hget : ∀ s uri, latched s →
      (b.getStream s uri).1 = .error .aborted ∧ latched (b.getStream s uri).2)
    (s : σ) (m : ConnectionMap) (calls : List (ConnectionView × URI × Bool)) :
    (closeConnections b s m).1 = [] ∧
    (runCalls perHost b (closeConnections b s m).2.1 (closeConnections b s m).1 calls).1 =
      List.replicate calls.length (GetResult.raised Error.aborted) ∧
    (runCalls perHost b (closeConnections b s m).2.1 (closeConnections b s m).1 calls).2.1 = [] ∧
    latched
      (runCalls perHost b (closeConnections b s m).2.1 (closeConnections b s m).1
        calls).2.2 := by
  have key : ∀ (calls : List (ConnectionView × URI × Bool)) (s0 : σ), latched s0 →
      (runCalls perHost b s0 [] calls).1 =
        List.replicate calls.length (GetResult.raised Error.aborted) ∧
      (runCalls perHost b s0 [] calls).2.1 = [] ∧
      latched (runCalls perHost b s0 [] calls).2.2 := by
    intro calls
    induction calls with
    | nil => intro s0 h0; exact ⟨rfl, rfl, h0⟩
    | cons call rest ih =>
        intro s0 h0
        obtain ⟨v, uri, force⟩ := call
        obtain ⟨hg1, hg2⟩ := hget s0 (schemeAndAuthority uri) h0
        obtain ⟨hr, hc, hb⟩ := getConnection_empty_aborted perHost v b s0 uri force hg1
        have := ih _ hg2
        simp only [runCalls, hr, hc, hb, List.length_cons, List.replicate_succ]
        exact ⟨by rw [this.1], this.2.1, this.2.2⟩
  exact ⟨rfl, key calls _ (hcancel s)⟩

/-- C7 witness. The socket stream broker latches `m_cancelled`; after
`closeConnections` two calls on the cache both raise `aborted`. -/
theorem closeConnections_then_aborted_witness :
    (closeConnections (socketStreamBroker deadNetwork) ⟨false, []⟩
        [(keyX, [some connA, none])]).1 = [] ∧
    (runCalls 2 (socketStreamBroker deadNetwork)
        (closeConnections (socketStreamBroker deadNetwork) ⟨false, []⟩
          [(keyX, [some connA, none])]).2.1
        (closeConnections (socketStreamBroker deadNetwork) ⟨false, []⟩
          [(keyX, [some connA, none])]).1
        [(idleView, uriA, false), (idleView, uriB, true)]).1 =
      List.replicate 2 (GetResult.raised Error.aborted) ∧
    (runCalls 2 (socketStreamBroker deadNetwork)
        (closeConnections (socketStreamBroker deadNetwork) ⟨false, []⟩
          [(keyX, [some connA, none])]).2.1
        (closeConnections (socketStreamBroker deadNetwork) ⟨false, []⟩
          [(keyX, [some connA, none])]).1
        [(idleView, uriA, false), (idleView, uriB, true)]).2.1 = [] ∧
    (runCalls 2 (socketStreamBroker deadNetwork)
        (closeConnections (socketStreamBroker deadNetwork) ⟨false, []⟩
          [(keyX, [some connA, none])]).2.1
        (closeConnections (socketStreamBroker deadNetwork) ⟨false, []⟩
          [(keyX, [some connA, none])]).1
        [(idleView, uriA, false), (idleView, uriB, true)]).2.2.cancelled = true :=
  closeConnections_then_aborted 2 (socketStreamBroker deadNetwork)
    (fun s => s.cancelled = true)
    (fun _ => rfl)
    (fun s uri h => by
      simp [socketStreamBroker, SocketStreamBroker.getStream, h])
    ⟨false, []⟩ [(keyX, [some connA, none])]
    [(idleView, uriA, false), (idleView, uriB, true)]

/-! ## Theorems: BaseRequestBroker -/

theorem baseLoop_connects_length (connect : Bool) (originalUri : URI) (force : Bool)
    (script : List Attempt) :
    ∀ (h : Request) (cs : List (URI × Bool)) (st : List (ClientConnection × Request)),
      cs.length + 1 ≤ (baseLoop connect originalUri force script h cs st).connects.length := by
  induction script with
  | nil => intro h cs st; simp [baseLoop]
  | cons a rest ih =>
      intro h cs st
      cases a with
      | noConnection e => simp [baseLoop]
      | connection conn viaProxy reply =>
          cases reply with
          | ok r => simp [baseLoop]
          | error e =>
              cases e
              case socket =>
                have := ih (h.withUri (fixUpUri connect viaProxy originalUri h.requestLine.uri))
                  (cs ++ [(if connect then originalUri else h.requestLine.uri, force)])
                  (st ++ [(conn,
                    h.withUri (fixUpUri connect viaProxy originalUri h.requestLine.uri))])
                simp only [baseLoop]
                simp only [List.length_append, List.length_cons, List.length_nil] at this
                omega
              case priorRequestFailed =>
                have := ih (h.withUri (fixUpUri connect viaProxy originalUri h.requestLine.uri))
                  (cs ++ [(if connect then originalUri else h.requestLine.uri, force)])
                  (st ++ [(conn,
                    h.withUri (fixUpUri connect viaProxy originalUri h.requestLine.uri))])
                simp only [baseLoop]
                simp only [List.length_append, List.length_cons, List.length_nil] at this
                omega
              all_goals simp [baseLoop]

theorem baseLoop_retried_passes (connect : Bool) (originalUri : URI) (force : Bool)
    (pre : List Attempt) (hpre : ∀ a ∈ pre, a.retried = true) :
    ∀ (h : Request) (cs : List (URI × Bool)) (st : List (ClientConnection × Request)),
      ∃ h1 cs1 st1, cs1.length = cs.length + pre.length ∧
        ∀ rest, baseLoop connect originalUri force (pre ++ rest) h cs st =
          baseLoop connect originalUri force rest h1 cs1 st1 := by
  induction pre with
  | nil => intro h cs st; exact ⟨h, cs, st, rfl, fun _ => rfl⟩
  | cons a pre ih =>
      intro h cs st
      have ha := hpre a (List.mem_cons_self _ _)
      have ih2 := ih (fun a ha => hpre a (List.mem_cons_of_mem _ ha))
      cases a with
      | noConnection e => simp [Attempt.retried] at ha
      | connection conn viaProxy reply =>
          cases reply with
          | ok r => simp [Attempt.retried] at ha
          | error e =>
              cases e
              case socket =>
                obtain ⟨h1, cs1, st1, hlen, heq⟩ :=
                  ih2 (h.withUri (fixUpUri connect viaProxy originalUri h.requestLine.uri))
                    (cs ++ [(if connect then originalUri else h.requestLine.uri, force)])
                    (st ++ [(conn,
                    h.withUri (fixUpUri connect viaProxy originalUri h.requestLine.uri))])
                refine ⟨h1, cs1, st1, ?_, ?_⟩
                · simp only [List.length_append, List.length_cons, List.length_nil] at hlen ⊢
                  omega
                · intro rest
                  simp only [List.cons_append, baseLoop]
                  exact heq rest
              case priorRequestFailed =>
                obtain ⟨h1, cs1, st1, hlen, heq⟩ :=
                  ih2 (h.withUri (fixUpUri connect viaProxy originalUri h.requestLine.uri))
                    (cs ++ [(if connect then originalUri else h.requestLine.uri, force)])
                    (st ++ [(conn,
                    h.withUri (fixUpUri connect viaProxy originalUri h.requestLine.uri))])
                refine ⟨h1, cs1, st1, ?_, ?_⟩
                · simp only [List.length_append, List.length_cons, List.length_nil] at hlen ⊢
                  omega
                · intro rest
                  simp only [List.cons_append, baseLoop]
                  exact heq rest
              all_goals simp [Attempt.retried] at ha

theorem request_eq_baseLoop (parseUri : String → URI) (h : Request)
    (force : Bool) (hacc : accepted h = true) :
    ∃ connect originalUri h0, ∀ script,
      BaseRequestBroker.request parseUri script h force =
        baseLoop connect originalUri force script h0 [] [] := by
  by_cases hc : h.requestLine.method = Method.CONNECT
  · have hh : h.request.host.isEmpty = false := by simpa [accepted, hc] using hacc
    exact ⟨true, parseUri ("http://" ++ h.request.host), h, fun script => by
      simp [BaseRequestBroker.request, hc, hh]⟩
  · have hh : h.requestLine.uri.authority.host.isSome = true := by
      simpa [accepted, hc] using hacc
    exact ⟨false, h.requestLine.uri,
      { h with request := { host := h.requestLine.uri.authority.host.getD "" } },
      fun script => by simp [BaseRequestBroker.request, hc, hh]⟩

/-- C2. After a retried pass on a direct connection the request-line URI has
lost scheme and host; when the next `getConnection` raises, the caller gets
the headers back with that URI instead of the URI on entry. -/
theorem base_uri_lost_after_retry :
    (BaseRequestBroker.request parseX
        [.connection connA false (.error .socket), .noConnection .aborted] getA false).result =
      .raised .aborted ∧
    (BaseRequestBroker.request parseX
        [.connection connA false (.error .socket), .noConnection .aborted] getA
        false).headers.requestLine.uri = ⟨none, ⟨none, none⟩, "/a", none, none⟩ ∧
    (BaseRequestBroker.request parseX
        [.connection connA false (.error .socket), .noConnection .aborted] getA
        false).headers.requestLine.uri ≠ getA.requestLine.uri ∧
    (BaseRequestBroker.request parseX
        [.connection connA false (.error .socket), .noConnection .aborted] getA
        false).connects =
      [(uriA, false), (⟨none, ⟨none, none⟩, "/a", none, none⟩, false)] := by
  decide

/-- C3 counterexample. A socket error raised by `getConnection` is raised to
the caller after that single `getConnection` call, although the connection
broker would have answered a second call. -/
theorem base_getConnection_socket_error_surfaces :
    (BaseRequestBroker.request parseX
        [.noConnection .socket, .connection connA false (.ok (answer 200 uriA))] getA
        false).result = .raised .socket ∧
    (BaseRequestBroker.request parseX
        [.noConnection .socket, .connection connA false (.ok (answer 200 uriA))] getA
        false).connects = [(uriA, false)] := by
  decide

/-- C3 (amended). After any number of retried passes, a socket error raised
by `getConnection` is raised to the caller without another `getConnection`
call, while a socket error raised by the `request` of an established
connection makes the loop call `getConnection` again. -/
theorem base_socket_error_paths (parseUri : String → URI) (h : Request) (force : Bool)
    (pre : List Attempt) (conn : ClientConnection) (viaProxy : Bool)
    (hacc : accepted h = true) (hpre : ∀ a ∈ pre, a.retried = true) :
    (∀ rest,
      (BaseRequestBroker.request parseUri (pre ++ .noConnection .socket :: rest) h
        force).result = .raised .socket ∧
      (BaseRequestBroker.request parseUri (pre ++ .noConnection .socket :: rest) h
        force).connects.length = pre.length + 1) ∧
    (BaseRequestBroker.request parseUri (pre ++ [.connection conn viaProxy (.error .socket)]) h
        force).result = .blocked ∧
    (∀ rest, pre.length + 2 ≤
      (BaseRequestBroker.request parseUri
        (pre ++ .connection conn viaProxy (.error .socket) :: rest) h force).connects.length) := by
  obtain ⟨connect, orig, h0, hreq⟩ := request_eq_baseLoop parseUri h force hacc
  obtain ⟨h1, cs1, st1, hlen, hloop⟩ :=
    baseLoop_retried_passes connect orig force pre hpre h0 [] []
  simp only [List.length_nil, Nat.zero_add] at hlen
  refine ⟨?_, ?_, ?_⟩
  · intro rest
    rw [hreq, hloop]
    simp [baseLoop, hlen]
  · rw [hreq, hloop]
    simp [baseLoop]
  · intro rest
    rw [hreq, hloop]
    simp only [baseLoop]
    have := baseLoop_connects_length connect orig force rest
      (h1.withUri (fixUpUri connect viaProxy orig h1.requestLine.uri))
      (cs1 ++ [(if connect then orig else h1.requestLine.uri, force)])
      (st1 ++ [(conn, h1.withUri (fixUpUri connect viaProxy orig h1.requestLine.uri))])
    simp only [List.length_append, List.length_cons, List.length_nil] at this
    omega

/-- C3 witness. A `GET` whose first pass ends in a socket error on the
connection: a socket error of the second `getConnection` call is raised, a
socket error on the second connection is followed by a third call. -/
theorem base_socket_error_paths_witness :
    accepted getA = true ∧
    (BaseRequestBroker.request parseX
      ([.connection connA false (.error .socket)] ++ [.noConnection .socket]) getA
      false).result = .raised .socket ∧
    (BaseRequestBroker.request parseX
      ([.connection connA false (.error .socket)] ++
        [.connection connB true (.error .socket)]) getA false).result = .blocked ∧
    1 + 2 ≤ (BaseRequestBroker.request parseX
      ([.connection connA false (.error .socket)] ++
        [.connection connB true (.error .socket)]) getA false).connects.length :=
  have h := base_socket_error_paths parseX getA false
    [.connection connA false (.error .socket)] connB true (by decide) (by decide)
  ⟨by decide, (h.1 []).1, h.2.1, h.2.2 []⟩

/-- C4. After any number of retried passes: when the `request` of the
connection raises a socket error or a prior-request-failed error, the loop
raises nothing and calls `getConnection` again; when it raises any other
error, that error is raised to the caller and `getConnection` is not called
again. -/
theorem base_retry_classification (parseUri : String → URI) (h : Request) (force : Bool)
    (pre : List Attempt) (conn : ClientConnection) (viaProxy : Bool) (e : Error)
    (hacc : accepted h = true) (hpre : ∀ a ∈ pre, a.retried = true) :
    ((e = .socket ∨ e = .priorRequestFailed) →
      (BaseRequestBroker.request parseUri (pre ++ [.connection conn viaProxy (.error e)]) h
        force).result = .blocked ∧
      (BaseRequestBroker.request parseUri (pre ++ [.connection conn viaProxy (.error e)]) h
        force).connects.length = pre.length + 2 ∧
      ∀ rest, pre.length + 2 ≤
        (BaseRequestBroker.request parseUri
          (pre ++ .connection conn viaProxy (.error e) :: rest) h force).connects.length) ∧
    (¬ (e = .socket ∨ e = .priorRequestFailed) →
      ∀ rest,
        (BaseRequestBroker.request parseUri
          (pre ++ .connection conn viaProxy (.error e) :: rest) h force).result = .raised e ∧
        (BaseRequestBroker.request parseUri
          (pre ++ .connection conn viaProxy (.error e) :: rest) h force).connects.length =
            pre.length + 1) := by
  obtain ⟨connect, orig, h0, hreq⟩ := request_eq_baseLoop parseUri h force hacc
  obtain ⟨h1, cs1, st1, hlen, hloop⟩ :=
    baseLoop_retried_passes connect orig force pre hpre h0 [] []
  simp only [List.length_nil, Nat.zero_add] at hlen
  have hmore := fun rest => baseLoop_connects_length connect orig force rest
      (h1.withUri (fixUpUri connect viaProxy orig h1.requestLine.uri))
      (cs1 ++ [(if connect then orig else h1.requestLine.uri, force)])
      (st1 ++ [(conn, h1.withUri (fixUpUri connect viaProxy orig h1.requestLine.uri))])
  simp only [List.length_append, List.length_cons, List.length_nil] at hmore
  constructor
  · intro he
    rcases he with rfl | rfl
    · refine ⟨?_, ?_, ?_⟩
      · rw [hreq, hloop]; simp [baseLoop]
      · rw [hreq, hloop]; simp [baseLoop, hlen]
      · intro rest
        rw [hreq, hloop]
        simp only [baseLoop]
        have := hmore rest
        omega
    · refine ⟨?_, ?_, ?_⟩
      · rw [hreq, hloop]; simp [baseLoop]
      · rw [hreq, hloop]; simp [baseLoop, hlen]
      · intro rest
        rw [hreq, hloop]
        simp only [baseLoop]
        have := hmore rest
        omega
  · intro hne rest
    rw [hreq, hloop]
    cases e
    case socket => exact absurd (Or.inl rfl) hne
    case priorRequestFailed => exact absurd (Or.inr rfl) hne
    all_goals simp [baseLoop, hlen]

/-- C4 witness. A `GET` whose first pass ends in a prior-request-failed
error and whose second pass ends in a protocol error on the connection: the
protocol error is raised after two `getConnection` calls. -/
theorem base_retry_classification_witness :
    accepted getA = true ∧
    (BaseRequestBroker.request parseX
      ([.connection connA false (.error .priorRequestFailed)] ++
        [.connection connB false (.error .httpProtocol)]) getA false).result =
          .raised .httpProtocol ∧
    (BaseRequestBroker.request parseX
      ([.connection connA false (.error .priorRequestFailed)] ++
        [.connection connB false (.error .httpProtocol)]) getA false).connects.length =
          1 + 1 :=
  have h := (base_retry_classification parseX getA false
    [.connection connA false (.error .priorRequestFailed)] connB false .httpProtocol
    (by decide) (by decide)).2 (by decide) []
  ⟨by decide, h.1, h.2⟩

/-! ## Theorems: RedirectRequestBroker -/

theorem redirect_status_iff (status : Nat) :
    (decide (status = FOUND) || decide (status = TEMPORARY_REDIRECT) ||
      decide (status = MOVED_PERMANENTLY)) = true ↔
    (status = 301 ∨ status = 302 ∨ status = 307) := by
  simp only [FOUND, TEMPORARY_REDIRECT, MOVED_PERMANENTLY, Bool.or_eq_true, decide_eq_true_eq]
  omega

theorem redirectLoop_redirect (transform : URI → URI → URI) (r : ClientRequest)
    (resp : Response) (rest : List (Except Error ClientRequest)) (orig : URI)
    (uris : List URI) (cur : URI) (disp : List URI) (fin : Nat)
    (hbody : r.hasRequestBody = false) (hresp : r.response = .ok resp)
    (hst : resp.status = 301 ∨ resp.status = 302 ∨ resp.status = 307) :
    redirectLoop transform (.ok r :: rest) orig uris cur disp fin =
      if transform cur resp.location ∈ uris then
        ⟨.raised (.circularRedirect orig), orig, disp ++ [cur], fin⟩
      else
        match r.finish with
        | some e =>
            ⟨.raised e, if resp.status = 301 then transform cur resp.location else orig,
              disp ++ [cur], fin + 1⟩
        | none =>
            redirectLoop transform rest
              (if resp.status = 301 then transform cur resp.location else orig)
              (uris ++ [transform cur resp.location]) (transform cur resp.location)
              (disp ++ [cur]) (fin + 1) := by
  have h := (redirect_status_iff resp.status).2 hst
  rw [redirectLoop]
  simp only [hbody, hresp, h, if_true, Bool.false_eq_true, if_false]
  rfl

theorem redirectLoop_final (transform : URI → URI → URI) (r : ClientRequest)
    (resp : Response) (rest : List (Except Error ClientRequest)) (orig : URI)
    (uris : List URI) (cur : URI) (disp : List URI) (fin : Nat)
    (hbody : r.hasRequestBody = false) (hresp : r.response = .ok resp)
    (hst : ¬ (resp.status = 301 ∨ resp.status = 302 ∨ resp.status = 307)) :
    redirectLoop transform (.ok r :: rest) orig uris cur disp fin =
      ⟨.returned r, orig, disp ++ [cur], fin⟩ := by
  have h : ¬ ((decide (resp.status = FOUND) || decide (resp.status = TEMPORARY_REDIRECT) ||
      decide (resp.status = MOVED_PERMANENTLY)) = true) :=
    fun h => hst ((redirect_status_iff resp.status).1 h)
  rw [redirectLoop]
  simp only [hbody, hresp, h, Bool.false_eq_true, if_false]

theorem redirectLoop_circular_of_revisits (transform : URI → URI → URI)
    (script : List (Except Error ClientRequest)) (cur : URI) (uris : List URI)
    (hrev : Revisits transform cur uris script)
    (hbody : ∀ r, Except.ok r ∈ script → r.hasRequestBody = false) :
    ∀ (orig : URI) (disp : List URI) (fin : Nat),
      ∃ u, (redirectLoop transform script orig uris cur disp fin).result =
        .raised (.circularRedirect u) := by
  induction hrev with
  | here cur visited r resp rest hresp hst hmem =>
      intro orig disp fin
      have hb := hbody r (List.mem_cons_self _ _)
      rw [redirectLoop_redirect transform r resp rest orig visited cur disp fin hb hresp hst]
      exact ⟨orig, by simp [hmem]⟩
  | later cur visited r resp rest hresp hst hfin _ ih =>
      intro orig disp fin
      have hb := hbody r (List.mem_cons_self _ _)
      rw [redirectLoop_redirect transform r resp rest orig visited cur disp fin hb hresp hst]
      by_cases hmem : transform cur resp.location ∈ visited
      · exact ⟨orig, by simp [hmem]⟩
      · simp only [hmem, if_false, hfin]
        exact ih (fun r hr => hbody r (List.mem_cons_of_mem _ hr)) _ _ _

theorem revisits_of_redirectLoop_circular (transform : URI → URI → URI)
    (script : List (Except Error ClientRequest))
    (hbody : ∀ r, Except.ok r ∈ script → r.hasRequestBody = false)
    (hquiet : ∀ a ∈ script, raisesCircular a = false) :
    ∀ (orig : URI) (uris : List URI) (cur : URI) (disp : List URI) (fin : Nat) (u : URI),
      (redirectLoop transform script orig uris cur disp fin).result =
        .raised (.circularRedirect u) →
      Revisits transform cur uris script := by
  induction script with
  | nil =>
      intro orig uris cur disp fin u h
      simp [redirectLoop] at h
  | cons a rest ih =>
      intro orig uris cur disp fin u h
      have hq := hquiet a (List.mem_cons_self _ _)
      have ih2 := ih (fun r hr => hbody r (List.mem_cons_of_mem _ hr))
        (fun a ha => hquiet a (List.mem_cons_of_mem _ ha))
      cases a with
      | error e =>
          simp only [redirectLoop, RequestResult.raised.injEq] at h
          subst h
          simp [raisesCircular] at hq
      | ok r =>
          have hb := hbody r (List.mem_cons_self _ _)
          cases hresp : r.response with
          | error e =>
              rw [redirectLoop] at h
              simp only [hb, hresp, Bool.false_eq_true, if_false,
                RequestResult.raised.injEq] at h
              subst h
              simp [raisesCircular, hresp] at hq
          | ok resp =>
              by_cases hst : resp.status = 301 ∨ resp.status = 302 ∨ resp.status = 307
              · rw [redirectLoop_redirect transform r resp rest orig uris cur disp fin hb
                  hresp hst] at h
                by_cases hmem : transform cur resp.location ∈ uris
                · exact Revisits.here cur uris r resp rest hresp hst hmem
                · simp only [hmem, if_false] at h
                  cases hfin : r.finish with
                  | some e =>
                      simp only [hfin, RequestResult.raised.injEq] at h
                      subst h
                      simp [raisesCircular, hresp, hfin] at hq
                  | none =>
                      simp only [hfin] at h
                      exact Revisits.later cur uris r resp rest hresp hst hfin
                        (ih2 _ _ _ _ _ u h)
              · rw [redirectLoop_final transform r resp rest orig uris cur disp fin hb
                  hresp hst] at h
                simp at h

/-- C9. For a request without a body and a wrapped broker that raises no
circular-redirect error of its own, `RedirectRequestBroker::request` raises
`CircularRedirect` exactly when the run of 301/302/307 answers reaches one
whose target (the transform of the current URI against `Location`) is the
URI on entry or an earlier target.  For 302 from A to B followed by 302 from
B to A it raises after the dispatches to A and to B, with the request-line
URI left equal to A. -/
theorem redirect_circular_iff (transform : URI → URI → URI)
    (script : List (Except Error ClientRequest)) (uri : URI)
    (hbody : ∀ r, Except.ok r ∈ script → r.hasRequestBody = false)
    (hquiet : ∀ a ∈ script, raisesCircular a = false) :
    ((∃ u, (RedirectRequestBroker.request transform script uri).result =
        .raised (.circularRedirect u)) ↔ Revisits transform uri [uri] script) ∧
    (∀ (a b locA locB : URI) (rest : List (Except Error ClientRequest)),
      a ≠ b → transform a locB = b → transform b locA = a →
      (RedirectRequestBroker.request transform
        (.ok (answer 302 locB) :: .ok (answer 302 locA) :: rest) a).result =
          .raised (.circularRedirect a) ∧
      (RedirectRequestBroker.request transform
        (.ok (answer 302 locB) :: .ok (answer 302 locA) :: rest) a).dispatched = [a, b] ∧
      (RedirectRequestBroker.request transform
        (.ok (answer 302 locB) :: .ok (answer 302 locA) :: rest) a).uri = a) := by
  refine ⟨⟨?_, ?_⟩, ?_⟩
  · rintro ⟨u, hu⟩
    exact revisits_of_redirectLoop_circular transform script hbody hquiet _ _ _ _ _ u hu
  · intro hrev
    exact redirectLoop_circular_of_revisits transform script uri [uri] hrev hbody _ _ _
  · intro a b locA locB rest hab h1 h2
    have hba : ¬ b = a := fun h => hab h.symm
    have e1 := redirectLoop_redirect transform (answer 302 locB) ⟨302, locB⟩
      (.ok (answer 302 locA) :: rest) a [a] a [] 0 rfl rfl (by simp)
    have e2 := redirectLoop_redirect transform (answer 302 locA) ⟨302, locA⟩
      rest a ([a] ++ [b]) b ([] ++ [a]) (0 + 1) rfl rfl (by simp)
    simp only [h1, List.mem_singleton, hba, if_false, answer, Nat.reduceEqDiff] at e1
    simp only [h2, List.mem_append, List.mem_singleton, true_or, if_true, answer] at e2
    simp only [RedirectRequestBroker.request, answer, e1, e2]
    simp

/-- C9 witness. With absolute `Location` values, 302 from `http://x/a` to
`http://x/b` and 302 back: `CircularRedirect` after two dispatches. -/
theorem redirect_circular_iff_witness :
    (∀ a ∈ [Except.ok (answer 302 uriB), Except.ok (answer 302 uriA)],
      raisesCircular a = false) ∧
    Revisits transformAbsolute uriA [uriA]
      [Except.ok (answer 302 uriB), Except.ok (answer 302 uriA)] ∧
    (RedirectRequestBroker.request transformAbsolute
      [Except.ok (answer 302 uriB), Except.ok (answer 302 uriA)] uriA).result =
        .raised (.circularRedirect uriA) ∧
    (RedirectRequestBroker.request transformAbsolute
      [Except.ok (answer 302 uriB), Except.ok (answer 302 uriA)] uriA).dispatched =
        [uriA, uriB] ∧
    (RedirectRequestBroker.request transformAbsolute
      [Except.ok (answer 302 uriB), Except.ok (answer 302 uriA)] uriA).uri = uriA :=
  have h := redirect_circular_iff transformAbsolute
    [Except.ok (answer 302 uriB), Except.ok (answer 302 uriA)] uriA
    (by
      intro r hr
      simp only [List.mem_cons, Except.ok.injEq, List.mem_singleton, List.not_mem_nil,
        or_false] at hr
      rcases hr with rfl | rfl <;> rfl)
    (by decide)
  have hs := h.2 uriA uriB uriA uriB [] (by decide) rfl rfl
  ⟨by decide, h.1.1 ⟨uriA, hs.1⟩, hs.1, hs.2.1, hs.2.2⟩

theorem exitUri_cons (entry : URI) (status : Nat) (target : URI)
    (redirects : List (Nat × URI)) :
    exitUri entry ((status, target) :: redirects) =
      exitUri (if status = 301 then target else entry) redirects := by
  by_cases h : status = 301
  · simp only [exitUri, List.filter_cons, h, decide_True, if_true]
    cases hf : List.filter (fun p : Nat × URI => decide (p.1 = 301)) redirects with
    | nil => simp
    | cons p ps => simp [List.getLast?_cons_cons, List.getLast?_cons]
  · simp [exitUri, List.filter_cons, h]

theorem redirectLoop_exit_uri (transform : URI → URI → URI)
    (script : List (Except Error ClientRequest)) :
    ∀ (orig : URI) (uris : List URI) (cur : URI) (disp : List URI) (fin : Nat),
      (redirectLoop transform script orig uris cur disp fin).result ≠ .blocked →
      (redirectLoop transform script orig uris cur disp fin).uri =
        exitUri orig (followed transform script cur uris) := by
  induction script with
  | nil =>
      intro orig uris cur disp fin h
      simp [redirectLoop] at h
  | cons a rest ih =>
      intro orig uris cur disp fin h
      cases a with
      | error e => simp [redirectLoop, followed, exitUri]
      | ok r =>
          cases hb : r.hasRequestBody with
          | true => simp [redirectLoop, followed, exitUri, hb]
          | false =>
              cases hresp : r.response with
              | error e => simp [redirectLoop, followed, exitUri, hb, hresp]
              | ok resp =>
                  by_cases hst : resp.status = 301 ∨ resp.status = 302 ∨ resp.status = 307
                  · rw [redirectLoop_redirect transform r resp rest orig uris cur disp fin hb
                      hresp hst] at h ⊢
                    by_cases hmem : transform cur resp.location ∈ uris
                    · simp [followed, exitUri, hb, hresp, hmem]
                    · cases hfin : r.finish with
                      | some e =>
                          simp only [followed, hb, hresp, hst, hmem, not_false_eq_true,
                            and_self, if_true, if_false, hfin, exitUri_cons]
                          simp [exitUri]
                      | none =>
                          simp only [hmem, if_false, hfin] at h
                          simp only [followed, hb, hresp, hst, hmem, not_false_eq_true,
                            and_self, if_true, if_false, hfin, exitUri_cons]
                          exact ih _ _ _ _ _ h
                  · rw [redirectLoop_final transform r resp rest orig uris cur disp fin hb
                      hresp hst]
                    simp [followed, exitUri, hb, hresp, hst]

theorem redirectLoop_exits (transform : URI → URI → URI)
    (script : List (Except Error ClientRequest))
    (hterm : ∃ a ∈ script, terminal a = true) :
    ∀ (orig : URI) (uris : List URI) (cur : URI) (disp : List URI) (fin : Nat),
      (redirectLoop transform script orig uris cur disp fin).result ≠ .blocked := by
  induction script with
  | nil =>
      obtain ⟨a, ha, _⟩ := hterm
      simp at ha
  | cons a rest ih =>
      intro orig uris cur disp fin
      cases a with
      | error e => simp [redirectLoop]
      | ok r =>
          cases hb : r.hasRequestBody with
          | true => simp [redirectLoop, hb]
          | false =>
              cases hresp : r.response with
              | error e => simp [redirectLoop, hb, hresp]
              | ok resp =>
                  by_cases hst : resp.status = 301 ∨ resp.status = 302 ∨ resp.status = 307
                  · rw [redirectLoop_redirect transform r resp rest orig uris cur disp fin hb
                      hresp hst]
                    by_cases hmem : transform cur resp.location ∈ uris
                    · simp [hmem]
                    · cases hfin : r.finish with
                      | some e => simp [hmem]
                      | none =>
                          simp only [hmem, if_false]
                          apply ih
                          obtain ⟨a, ha, hta⟩ := hterm
                          rcases List.mem_cons.1 ha with rfl | ha
                          · simp [terminal, hb, hresp, hst] at hta
                          · exact ⟨a, ha, hta⟩
                  · rw [redirectLoop_final transform r resp rest orig uris cur disp fin hb
                      hresp hst]
                    simp

/-- C10. On every exit of `RedirectRequestBroker::request` (a request is
returned, `CircularRedirect` is raised, or an error of the wrapped broker or
of its request is raised) the request-line URI is the target of the last
301 among the redirects followed, and the URI on entry when no 301 was
followed; and the call exits as soon as the wrapped broker gives an answer
that is not a redirect. -/
theorem redirect_exit_uri (transform : URI → URI → URI)
    (script : List (Except Error ClientRequest)) (uri : URI) :
    ((RedirectRequestBroker.request transform script uri).result ≠ .blocked →
      (RedirectRequestBroker.request transform script uri).uri =
        exitUri uri (followed transform script uri [uri])) ∧
    ((∃ a ∈ script, terminal a = true) →
      (RedirectRequestBroker.request transform script uri).result ≠ .blocked) :=
  ⟨redirectLoop_exit_uri transform script uri [uri] uri [] 0,
    fun h => redirectLoop_exits transform script h uri [uri] uri [] 0⟩

/-- C10 witness. With absolute `Location` values, 301 from `http://x/a` to
`http://x/b` followed by 200: the request is returned and the request-line
URI is `http://x/b`. -/
theorem redirect_exit_uri_witness :
    (∃ a ∈ [Except.ok (answer 301 uriB), Except.ok (answer 200 uriA)], terminal a = true) ∧
    (RedirectRequestBroker.request transformAbsolute
      [Except.ok (answer 301 uriB), Except.ok (answer 200 uriA)] uriA).result ≠ .blocked ∧
    (RedirectRequestBroker.request transformAbsolute
      [Except.ok (answer 301 uriB), Except.ok (answer 200 uriA)] uriA).uri =
        exitUri uriA (followed transformAbsolute
          [Except.ok (answer 301 uriB), Except.ok (answer 200 uriA)] uriA [uriA]) ∧
    exitUri uriA (followed transformAbsolute
      [Except.ok (answer 301 uriB), Except.ok (answer 200 uriA)] uriA [uriA]) = uriB :=
  have h := redirect_exit_uri transformAbsolute
    [Except.ok (answer 301 uriB), Except.ok (answer 200 uriA)] uriA
  have hterm : ∃ a ∈ [Except.ok (answer 301 uriB), Except.ok (answer 200 uriA)],
      terminal a = true := by decide
  ⟨hterm, h.2 hterm, h.1 (h.2 hterm), by decide⟩

/-! ## Theorems: redirect scenarios -/

/-- C11 counterexample. With absolute `Location` values, 301 from
`http://x/a` to `http://x/b` followed by 200: the request is returned with
the request-line URI `http://x/b`, not the URI on entry; and when the 301
points at the URI on entry itself, `CircularRedirect` is raised after one
dispatch. -/
theorem redirect_moved_permanently_uri_not_restored :
    ((RedirectRequestBroker.request transformAbsolute
        [Except.ok (answer 301 uriB), Except.ok (answer 200 uriA)] uriA).result =
        .returned (answer 200 uriA) ∧
      (RedirectRequestBroker.request transformAbsolute
        [Except.ok (answer 301 uriB), Except.ok (answer 200 uriA)] uriA).dispatched =
        [uriA, uriB] ∧
      (RedirectRequestBroker.request transformAbsolute
        [Except.ok (answer 301 uriB), Except.ok (answer 200 uriA)] uriA).uri = uriB ∧
      (RedirectRequestBroker.request transformAbsolute
        [Except.ok (answer 301 uriB), Except.ok (answer 200 uriA)] uriA).uri ≠ uriA) ∧
    ((RedirectRequestBroker.request transformAbsolute
        [Except.ok (answer 301 uriA), Except.ok (answer 200 uriA)] uriA).result =
        .raised (.circularRedirect uriA) ∧
      (RedirectRequestBroker.request transformAbsolute
        [Except.ok (answer 301 uriA), Except.ok (answer 200 uriA)] uriA).dispatched =
        [uriA]) := by
  decide

/-- C11 (amended). When the wrapped broker answers the first dispatch with
301 and a `Location` whose target differs from the URI on entry, and the
second with 200 (request without a body), `RedirectRequestBroker::request`
makes exactly two dispatches, the second with the request-line URI equal to
the transform of the entry URI against `Location`, calls `finish()` once,
and returns the second request with the request-line URI equal to that
target. -/
theorem redirect_moved_permanently_scenario (transform : URI → URI → URI)
    (uri location : URI) (r2 : ClientRequest) (resp2 : Response)
    (rest : List (Except Error ClientRequest))
    (hnew : transform uri location ≠ uri)
    (hbody : r2.hasRequestBody = false) (hresp : r2.response = .ok resp2)
    (hst : resp2.status = 200) :
    (RedirectRequestBroker.request transform
      (.ok (answer 301 location) :: .ok r2 :: rest) uri).result = .returned r2 ∧
    (RedirectRequestBroker.request transform
      (.ok (answer 301 location) :: .ok r2 :: rest) uri).dispatched =
        [uri, transform uri location] ∧
    (RedirectRequestBroker.request transform
      (.ok (answer 301 location) :: .ok r2 :: rest) uri).finished = 1 ∧
    (RedirectRequestBroker.request transform
      (.ok (answer 301 location) :: .ok r2 :: rest) uri).uri = transform uri location := by
  have e1 := redirectLoop_redirect transform (answer 301 location) ⟨301, location⟩
    (.ok r2 :: rest) uri [uri] uri [] 0 rfl rfl (by simp)
  have hst2 : ¬ (resp2.status = 301 ∨ resp2.status = 302 ∨ resp2.status = 307) := by
    rw [hst]; decide
  have e2 := redirectLoop_final transform r2 resp2 rest (transform uri location)
    ([uri] ++ [transform uri location]) (transform uri location) ([] ++ [uri]) (0 + 1)
    hbody hresp hst2
  simp only [List.mem_singleton, hnew, if_false, answer, if_true] at e1
  simp only [RedirectRequestBroker.request, answer, e1, e2]
  simp

/-- C11 witness. With absolute `Location` values, 301 from `http://x/a` to
`http://x/b` followed by 200. -/
theorem redirect_moved_permanently_scenario_witness :
    transformAbsolute uriA uriB ≠ uriA ∧
    (RedirectRequestBroker.request transformAbsolute
      (.ok (answer 301 uriB) :: .ok (answer 200 uriA) :: []) uriA).result =
        .returned (answer 200 uriA) ∧
    (RedirectRequestBroker.request transformAbsolute
      (.ok (answer 301 uriB) :: .ok (answer 200 uriA) :: []) uriA).uri =
        transformAbsolute uriA uriB :=
  have h := redirect_moved_permanently_scenario transformAbsolute uriA uriB
    (answer 200 uriA) ⟨200, uriA⟩ [] (by decide) rfl rfl rfl
  ⟨by decide, h.1, h.2.2.2⟩

/-- C12 counterexample. With absolute `Location` values, 301 from
`http://x/a` to `http://x/b` followed by 302 to `http://x/b`:
`CircularRedirect` is raised after the two dispatches, there is no third
one. -/
theorem redirect_to_permanent_target_is_circular :
    (RedirectRequestBroker.request transformAbsolute
      [Except.ok (answer 301 uriB), Except.ok (answer 302 uriB),
        Except.ok (answer 200 uriA)] uriA).result = .raised (.circularRedirect uriB) ∧
    (RedirectRequestBroker.request transformAbsolute
      [Except.ok (answer 301 uriB), Except.ok (answer 302 uriB),
        Except.ok (answer 200 uriA)] uriA).dispatched = [uriA, uriB] := by
  decide

/-- C12 (amended). After `RedirectRequestBroker::request` has followed a 301
to a target, a 302 answer whose `Location` resolves to that same target
raises `CircularRedirect` (carrying the target): the target of the 301 is in
the visited list like every other target; there is no further dispatch and
the request-line URI is left equal to the target. -/
theorem redirect_found_after_moved_permanently (transform : URI → URI → URI)
    (uri location1 location2 : URI) (rest : List (Except Error ClientRequest))
    (hnew : transform uri location1 ≠ uri)
    (hsame : transform (transform uri location1) location2 = transform uri location1) :
    (RedirectRequestBroker.request transform
      (.ok (answer 301 location1) :: .ok (answer 302 location2) :: rest) uri).result =
        .raised (.circularRedirect (transform uri location1)) ∧
    (RedirectRequestBroker.request transform
      (.ok (answer 301 location1) :: .ok (answer 302 location2) :: rest) uri).dispatched =
        [uri, transform uri location1] ∧
    (RedirectRequestBroker.request transform
      (.ok (answer 301 location1) :: .ok (answer 302 location2) :: rest) uri).uri =
        transform uri location1 := by
  have e1 := redirectLoop_redirect transform (answer 301 location1) ⟨301, location1⟩
    (.ok (answer 302 location2) :: rest) uri [uri] uri [] 0 rfl rfl (by simp)
  have e2 := redirectLoop_redirect transform (answer 302 location2) ⟨302, location2⟩
    rest (transform uri location1) ([uri] ++ [transform uri location1])
    (transform uri location1) ([] ++ [uri]) (0 + 1) rfl rfl (by simp)
  simp only [List.mem_singleton, hnew, if_false, answer, if_true] at e1
  simp only [hsame, List.mem_append, List.mem_singleton, or_true, if_true, answer] at e2
  simp only [RedirectRequestBroker.request, answer, e1, e2]
  simp

/-- C12 witness. With absolute `Location` values, 301 from `http://x/a` to
`http://x/b` followed by 302 to `http://x/b`. -/
theorem redirect_found_after_moved_permanently_witness :
    transformAbsolute uriA uriB ≠ uriA ∧
    transformAbsolute (transformAbsolute uriA uriB) uriB = transformAbsolute uriA uriB ∧
    (RedirectRequestBroker.request transformAbsolute
      (.ok (answer 301 uriB) :: .ok (answer 302 uriB) :: []) uriA).result =
        .raised (.circularRedirect (transformAbsolute uriA uriB)) :=
  have h := redirect_found_after_moved_permanently transformAbsolute uriA uriB uriB []
    (by decide) rfl
  ⟨by decide, rfl, h.1⟩

/-- C13. Whatever the status and the outcome of `response()`: when the
request returned by the wrapped broker has a body,
`RedirectRequestBroker::request` returns that request after this one
dispatch, without a `finish()` call, with the request-line URI as on entry;
the result does not depend on the response, which is not read. -/
theorem redirect_suppressed_on_body (transform : URI → URI → URI) (uri : URI)
    (r : ClientRequest) (rest : List (Except Error ClientRequest))
    (hbody : r.hasRequestBody = true) :
    (RedirectRequestBroker.request transform (.ok r :: rest) uri).result = .returned r ∧
    (RedirectRequestBroker.request transform (.ok r :: rest) uri).dispatched = [uri] ∧
    (RedirectRequestBroker.request transform (.ok r :: rest) uri).finished = 0 ∧
    (RedirectRequestBroker.request transform (.ok r :: rest) uri).uri = uri ∧
    ∀ (response : Except Error Response) (finish : Option Error),
      (RedirectRequestBroker.request transform
        (.ok ⟨true, response, finish⟩ :: rest) uri).dispatched = [uri] ∧
      (RedirectRequestBroker.request transform
        (.ok ⟨true, response, finish⟩ :: rest) uri).finished = 0 ∧
      (RedirectRequestBroker.request transform
        (.ok ⟨true, response, finish⟩ :: rest) uri).uri = uri ∧
      (RedirectRequestBroker.request transform
        (.ok ⟨true, response, finish⟩ :: rest) uri).result =
          .returned ⟨true, response, finish⟩ := by
  refine ⟨?_, ?_, ?_, ?_, ?_⟩ <;>
    simp [RedirectRequestBroker.request, redirectLoop, hbody]

/-- C13 witness. A request with a body answered by 301 with `Location`
`http://x/b`, and one whose `response()` raises. -/
theorem redirect_suppressed_on_body_witness :
    (RedirectRequestBroker.request transformAbsolute
      (.ok ⟨true, .ok ⟨301, uriB⟩, none⟩ :: []) uriA).result =
        .returned ⟨true, .ok ⟨301, uriB⟩, none⟩ ∧
    (RedirectRequestBroker.request transformAbsolute
      (.ok ⟨true, .ok ⟨301, uriB⟩, none⟩ :: []) uriA).dispatched = [uriA] ∧
    (RedirectRequestBroker.request transformAbsolute
      (.ok ⟨true, .error .socket, none⟩ :: []) uriA).result =
        .returned ⟨true, .error .socket, none⟩ :=
  have h := redirect_suppressed_on_body transformAbsolute uriA
    ⟨true, .ok ⟨301, uriB⟩, none⟩ [] rfl
  ⟨h.1, h.2.1, (h.2.2.2.2 (.error .socket) none).2.2.2⟩

/-! ## Theorems: request line, Host header and dial target -/

theorem fixUpUri_eq (viaProxy : Bool) (orig cur : URI)
    (horig : orig.authority.host.isSome = true)
    (hcur : cur = orig ∨ cur = originForm orig) :
    fixUpUri false viaProxy orig cur = if viaProxy then orig else originForm orig := by
  obtain ⟨scheme, ⟨host, port⟩, path, query, fragment⟩ := orig
  simp only at horig
  cases host with
  | none => simp at horig
  | some hn =>
      rcases hcur with rfl | rfl
      · cases viaProxy <;> simp [fixUpUri, originForm]
      · cases viaProxy
        · simp [fixUpUri, originForm]
        · cases scheme <;> simp [fixUpUri, originForm]

theorem baseLoop_sent (orig : URI) (force : Bool)
    (horig : orig.authority.host.isSome = true) (script : List Attempt) :
    ∀ (h : Request) (cs : List (URI × Bool)) (st : List (ClientConnection × Request)),
      (h.requestLine.uri = orig ∨ h.requestLine.uri = originForm orig) →
      ∃ l, (baseLoop false orig force script h cs st).sent = st ++ l ∧
        List.Forall₂
          (fun (viaProxy : Bool) (p : ClientConnection × Request) =>
            p.2.requestLine.uri = if viaProxy then orig else originForm orig)
          (dispatchedPasses script) l := by
  induction script with
  | nil =>
      intro h cs st _
      exact ⟨[], by simp [baseLoop], by simp [dispatchedPasses]⟩
  | cons a rest ih =>
      intro h cs st hh
      cases a with
      | noConnection e => exact ⟨[], by simp [baseLoop], by simp [dispatchedPasses]⟩
      | connection conn viaProxy reply =>
          have hfix := fixUpUri_eq viaProxy orig h.requestLine.uri horig hh
          have hnext :
              (h.withUri (fixUpUri false viaProxy orig h.requestLine.uri)).requestLine.uri
              = orig ∨
              (h.withUri (fixUpUri false viaProxy orig h.requestLine.uri)).requestLine.uri
              = originForm orig := by
            rw [hfix]
            cases viaProxy <;> simp [Request.withUri]
          have hline :
              (h.withUri (fixUpUri false viaProxy orig h.requestLine.uri)).requestLine.uri
              = if viaProxy then orig else originForm orig := by
            rw [hfix]; rfl
          cases reply with
          | ok r =>
              refine ⟨[(conn, h.withUri (fixUpUri false viaProxy orig h.requestLine.uri))],
                by simp [baseLoop], ?_⟩
              simp only [dispatchedPasses, Attempt.retried]
              exact List.Forall₂.cons hline List.Forall₂.nil
          | error e =>
              cases e
              case socket =>
                obtain ⟨l, hl, hf⟩ := ih _
                  (cs ++ [(if false then orig else h.requestLine.uri, force)])
                  (st ++ [(conn, h.withUri (fixUpUri false viaProxy orig h.requestLine.uri))])
                  hnext
                refine ⟨(conn,
                  h.withUri (fixUpUri false viaProxy orig h.requestLine.uri)) :: l, ?_, ?_⟩
                · simp only [baseLoop]
                  rw [hl]
                  simp
                · simp only [dispatchedPasses, Attempt.retried, if_true]
                  exact List.Forall₂.cons hline hf
              case priorRequestFailed =>
                obtain ⟨l, hl, hf⟩ := ih _
                  (cs ++ [(if false then orig else h.requestLine.uri, force)])
                  (st ++ [(conn, h.withUri (fixUpUri false viaProxy orig h.requestLine.uri))])
                  hnext
                refine ⟨(conn,
                  h.withUri (fixUpUri false viaProxy orig h.requestLine.uri)) :: l, ?_, ?_⟩
                · simp only [baseLoop]
                  rw [hl]
                  simp
                · simp only [dispatchedPasses, Attempt.retried, if_true]
                  exact List.Forall₂.cons hline hf
              all_goals
                refine ⟨[(conn, h.withUri (fixUpUri false viaProxy orig h.requestLine.uri))],
                  by simp [baseLoop], ?_⟩
                simp only [dispatchedPasses, Attempt.retried]
                exact List.Forall₂.cons hline List.Forall₂.nil

/-- C14. For a request other than `CONNECT`, pass by pass: the URI handed to
`ClientConnection::request` on a direct connection has no scheme and no
host in its authority, with the path and the query of the URI on entry; on
a proxied connection it is the URI on entry, with its scheme and
authority. -/
theorem base_request_line_form (parseUri : String → URI) (script : List Attempt)
    (h : Request) (force : Bool)
    (hm : h.requestLine.method ≠ Method.CONNECT) (hacc : accepted h = true) :
    List.Forall₂
      (fun (viaProxy : Bool) (p : ClientConnection × Request) =>
        (viaProxy = false →
          p.2.requestLine.uri.scheme = none ∧
          p.2.requestLine.uri.authority.host = none ∧
          p.2.requestLine.uri.path = h.requestLine.uri.path ∧
          p.2.requestLine.uri.query = h.requestLine.uri.query) ∧
        (viaProxy = true →
          p.2.requestLine.uri.scheme = h.requestLine.uri.scheme ∧
          p.2.requestLine.uri.authority = h.requestLine.uri.authority ∧
          p.2.requestLine.uri = h.requestLine.uri))
      (dispatchedPasses script)
      (BaseRequestBroker.request parseUri script h force).sent := by
  have hh : h.requestLine.uri.authority.host.isSome = true := by
    simpa [accepted, hm] using hacc
  have hreq : BaseRequestBroker.request parseUri script h force =
      baseLoop false h.requestLine.uri force script
        { h with request := { host := h.requestLine.uri.authority.host.getD "" } } [] [] := by
    simp [BaseRequestBroker.request, hm, hh]
  obtain ⟨l, hl, hf⟩ := baseLoop_sent h.requestLine.uri force hh script
    { h with request := { host := h.requestLine.uri.authority.host.getD "" } } [] []
    (Or.inl rfl)
  rw [hreq, hl, List.nil_append]
  refine List.Forall₂.imp ?_ hf
  intro viaProxy p hp
  constructor
  · intro hv
    subst hv
    simp only [Bool.false_eq_true, if_false] at hp
    rw [hp]
    exact ⟨rfl, rfl, rfl, rfl⟩
  · intro hv
    subst hv
    simp only [if_true] at hp
    rw [hp]
    exact ⟨rfl, rfl, rfl⟩

/-- C14 witness. `GET http://x/a`: a first pass on a direct connection that
is retried, a second pass on a proxied connection. -/
theorem base_request_line_form_witness :
    getA.requestLine.method ≠ Method.CONNECT ∧ accepted getA = true ∧
    List.Forall₂
      (fun (viaProxy : Bool) (p : ClientConnection × Request) =>
        (viaProxy = false →
          p.2.requestLine.uri.scheme = none ∧
          p.2.requestLine.uri.authority.host = none ∧
          p.2.requestLine.uri.path = getA.requestLine.uri.path ∧
          p.2.requestLine.uri.query = getA.requestLine.uri.query) ∧
        (viaProxy = true →
          p.2.requestLine.uri.scheme = getA.requestLine.uri.scheme ∧
          p.2.requestLine.uri.authority = getA.requestLine.uri.authority ∧
          p.2.requestLine.uri = getA.requestLine.uri))
      [false, true]
      (BaseRequestBroker.request parseX
        [.connection connA false (.error .socket),
          .connection connB true (.ok (answer 200 uriA))] getA false).sent :=
  ⟨by decide, by decide,
    base_request_line_form parseX
      [.connection connA false (.error .socket),
        .connection connB true (.ok (answer 200 uriA))] getA false (by decide) (by decide)⟩

theorem baseLoop_host (connect : Bool) (orig : URI) (force : Bool) (script : List Attempt) :
    ∀ (h : Request) (cs : List (URI × Bool)) (st : List (ClientConnection × Request)),
      (baseLoop connect orig force script h cs st).headers.request = h.request ∧
      ∀ p ∈ (baseLoop connect orig force script h cs st).sent,
        p ∈ st ∨ p.2.request = h.request := by
  induction script with
  | nil =>
      intro h cs st
      simp [baseLoop]
      try aesop
  | cons a rest ih =>
      intro h cs st
      cases a with
      | noConnection e =>
          simp [baseLoop]
          try aesop
      | connection conn viaProxy reply =>
          cases reply with
          | ok r =>
              cases connect <;> simp [baseLoop, Request.withUri] <;> aesop
          | error e =>
              cases e
              case socket =>
                obtain ⟨h1, h2⟩ := ih
                  (h.withUri (fixUpUri connect viaProxy orig h.requestLine.uri))
                  (cs ++ [(if connect then orig else h.requestLine.uri, force)])
                  (st ++ [(conn, h.withUri (fixUpUri connect viaProxy orig h.requestLine.uri))])
                simp only [baseLoop]
                refine ⟨h1, ?_⟩
                intro p hp
                rcases h2 p hp with hp2 | hp2
                · rcases List.mem_append.1 hp2 with hp3 | hp3
                  · exact Or.inl hp3
                  · simp only [List.mem_singleton] at hp3
                    subst hp3
                    exact Or.inr rfl
                · exact Or.inr hp2
              case priorRequestFailed =>
                obtain ⟨h1, h2⟩ := ih
                  (h.withUri (fixUpUri connect viaProxy orig h.requestLine.uri))
                  (cs ++ [(if connect then orig else h.requestLine.uri, force)])
                  (st ++ [(conn, h.withUri (fixUpUri connect viaProxy orig h.requestLine.uri))])
                simp only [baseLoop]
                refine ⟨h1, ?_⟩
                intro p hp
                rcases h2 p hp with hp2 | hp2
                · rcases List.mem_append.1 hp2 with hp3 | hp3
                  · exact Or.inl hp3
                  · simp only [List.mem_singleton] at hp3
                    subst hp3
                    exact Or.inr rfl
                · exact Or.inr hp2
              all_goals
                cases connect <;> simp [baseLoop, Request.withUri] <;> aesop

theorem baseLoop_connect (orig : URI) (force : Bool) (script : List Attempt) :
    ∀ (h : Request) (cs : List (URI × Bool)) (st : List (ClientConnection × Request)),
      (baseLoop true orig force script h cs st).headers = h ∧
      (∀ p ∈ (baseLoop true orig force script h cs st).sent, p ∈ st ∨ p.2 = h) ∧
      ∀ c ∈ (baseLoop true orig force script h cs st).connects, c ∈ cs ∨ c = (orig, force) := by
  have hfix : ∀ (viaProxy : Bool) (h : Request),
      h.withUri (fixUpUri true viaProxy orig h.requestLine.uri) = h := by
    intro viaProxy h
    simp [fixUpUri, Request.withUri]
  induction script with
  | nil =>
      intro h cs st
      simp [baseLoop]
      try aesop
  | cons a rest ih =>
      intro h cs st
      cases a with
      | noConnection e =>
          simp [baseLoop]
          try aesop
      | connection conn viaProxy reply =>
          cases reply with
          | ok r =>
              simp only [baseLoop, hfix]
              simp
              try aesop
          | error e =>
              cases e
              case socket =>
                obtain ⟨h1, h2, h3⟩ := ih h (cs ++ [(orig, force)]) (st ++ [(conn, h)])
                simp only [baseLoop, hfix, if_true]
                refine ⟨h1, ?_, ?_⟩
                · intro p hp
                  rcases h2 p hp with hp2 | hp2
                  · rcases List.mem_append.1 hp2 with hp3 | hp3
                    · exact Or.inl hp3
                    · simp only [List.mem_singleton] at hp3
                      subst hp3
                      exact Or.inr rfl
                  · exact Or.inr hp2
                · intro c hc
                  rcases h3 c hc with hc2 | hc2
                  · rcases List.mem_append.1 hc2 with hc3 | hc3
                    · exact Or.inl hc3
                    · simp only [List.mem_singleton] at hc3
                      exact Or.inr hc3
                  · exact Or.inr hc2
              case priorRequestFailed =>
                obtain ⟨h1, h2, h3⟩ := ih h (cs ++ [(orig, force)]) (st ++ [(conn, h)])
                simp only [baseLoop, hfix, if_true]
                refine ⟨h1, ?_, ?_⟩
                · intro p hp
                  rcases h2 p hp with hp2 | hp2
                  · rcases List.mem_append.1 hp2 with hp3 | hp3
                    · exact Or.inl hp3
                    · simp only [List.mem_singleton] at hp3
                      subst hp3
                      exact Or.inr rfl
                  · exact Or.inr hp2
                · intro c hc
                  rcases h3 c hc with hc2 | hc2
                  · rcases List.mem_append.1 hc2 with hc3 | hc3
                    · exact Or.inl hc3
                    · simp only [List.mem_singleton] at hc3
                      exact Or.inr hc3
                  · exact Or.inr hc2
              all_goals
                simp only [baseLoop, hfix]
                simp
                try aesop

/-- C15. For a request other than `CONNECT` whose URI has a host, the `Host`
header handed to every connection and left to the caller is that host,
whatever `Host` was passed in; for a `CONNECT` request with a non-empty
`Host` header the headers handed to every connection and left to the caller
are the headers passed in (request-line URI and `Host` untouched) and every
`getConnection` call is made with the URI converted from `http://` followed
by the `Host` header. -/
theorem base_host_handling (parseUri : String → URI) (script : List Attempt)
    (h : Request) (force : Bool) :
    (h.requestLine.method ≠ Method.CONNECT →
      ∀ host, h.requestLine.uri.authority.host = some host →
        (BaseRequestBroker.request parseUri script h force).headers.request.host = host ∧
        ∀ p ∈ (BaseRequestBroker.request parseUri script h force).sent,
          p.2.request.host = host) ∧
    (h.requestLine.method = Method.CONNECT → h.request.host.isEmpty = false →
      (BaseRequestBroker.request parseUri script h force).headers = h ∧
      (∀ p ∈ (BaseRequestBroker.request parseUri script h force).sent, p.2 = h) ∧
      ∀ c ∈ (BaseRequestBroker.request parseUri script h force).connects,
        c = (parseUri ("http://" ++ h.request.host), force)) := by
  constructor
  · intro hm host hhost
    have hreq : BaseRequestBroker.request parseUri script h force =
        baseLoop false h.requestLine.uri force script
          { h with request := { host := host } } [] [] := by
      simp [BaseRequestBroker.request, hm, hhost]
    obtain ⟨h1, h2⟩ := baseLoop_host false h.requestLine.uri force script
      { h with request := { host := host } } [] []
    rw [hreq]
    refine ⟨by rw [h1], ?_⟩
    intro p hp
    rcases h2 p hp with hp2 | hp2
    · simp at hp2
    · rw [hp2]
  · intro hm hne
    have hreq : BaseRequestBroker.request parseUri script h force =
        baseLoop true (parseUri ("http://" ++ h.request.host)) force script h [] [] := by
      simp [BaseRequestBroker.request, hm, hne]
    obtain ⟨h1, h2, h3⟩ := baseLoop_connect (parseUri ("http://" ++ h.request.host)) force
      script h [] []
    rw [hreq]
    refine ⟨h1, ?_, ?_⟩
    · intro p hp
      rcases h2 p hp with hp2 | hp2
      · simp at hp2
      · exact hp2
    · intro c hc
      rcases h3 c hc with hc2 | hc2
      · simp at hc2
      · exact hc2

/-- C15 witness. `GET http://x/a` sent with `Host: y` on a connection that
answers: the connection and the caller see `Host: x`.  `CONNECT` with
`Host: x:443` retried once: the caller gets its headers back. -/
theorem base_host_handling_witness :
    getAHostY.requestLine.method ≠ Method.CONNECT ∧
    getAHostY.requestLine.uri.authority.host = some "x" ∧
    (BaseRequestBroker.request parseX [.connection connA false (.ok (answer 200 uriA))]
      getAHostY false).headers.request.host = "x" ∧
    (BaseRequestBroker.request parseX [.connection connA false (.ok (answer 200 uriA))]
      getAHostY false).sent.length = 1 ∧
    connectX.requestLine.method = Method.CONNECT ∧ connectX.request.host.isEmpty = false ∧
    (BaseRequestBroker.request parseX
      [.connection connA false (.error .socket),
        .connection connB false (.ok (answer 200 uriA))]
      connectX false).headers = connectX ∧
    (BaseRequestBroker.request parseX
      [.connection connA false (.error .socket),
        .connection connB false (.ok (answer 200 uriA))]
      connectX false).connects.length = 2 :=
  ⟨by decide, by decide,
    ((base_host_handling parseX [.connection connA false (.ok (answer 200 uriA))]
      getAHostY false).1 (by decide) "x" (by decide)).1,
    by decide, by decide, by decide,
    ((base_host_handling parseX
      [.connection connA false (.error .socket),
        .connection connB false (.ok (answer 200 uriA))]
      connectX false).2 (by decide) (by decide)).1,
    by decide⟩

/-- C20. `GET http://x/a`, a first pass on a direct connection that is
retried: the second `getConnection` call is passed the request-line URI with
scheme and host cleared, whose pool key is not the key of `http://x/a` and on
which `SocketStreamBroker::getStream` fails its assertion. -/
theorem base_retry_dials_stripped_uri :
    (BaseRequestBroker.request parseX
      [.connection connA false (.error .priorRequestFailed),
        .connection connB false (.ok (answer 200 uriA))] getA false).connects =
      [(uriA, false), (⟨none, ⟨none, none⟩, "/a", none, none⟩, false)] ∧
    (⟨none, ⟨none, none⟩, "/a", none, none⟩ : URI) ≠ getA.requestLine.uri ∧
    schemeAndAuthority ⟨none, ⟨none, none⟩, "/a", none, none⟩ ≠ schemeAndAuthority uriA ∧
    (SocketStreamBroker.getStream liveNetwork ⟨false, []⟩
      (schemeAndAuthority ⟨none, ⟨none, none⟩, "/a", none, none⟩)).1 = .error .assertion := by
  decide

/-! ## Theorems: SocketStreamBroker -/

theorem eraseIdx_append_length {α : Type} (l : List α) (x : α) :
    (l ++ [x]).eraseIdx l.length = l := by
  induction l with
  | nil => rfl
  | cons a t ih => simp [List.eraseIdx, ih]

theorem connectLoop_pass (net : Network) (s : SocketStreamBroker) (socket : Option Socket)
    (a : Address) (rest : List Address) :
    connectLoop net s socket (a :: rest) =
      match s.register ⟨a⟩ with
      | (.error e, s1) => (.error e, s1)
      | (.ok it2, s1) =>
          match net.connect a with
          | .ok _ => (.ok (some ⟨a⟩), s1.erase it2)
          | .error e =>
              if rest.isEmpty then (.error e, s1.erase it2)
              else connectLoop net (s1.erase it2) (some ⟨a⟩) rest := by
  by_cases hc : s.cancelled = true
  · simp [connectLoop, SocketStreamBroker.register, hc]
  · simp only [connectLoop, SocketStreamBroker.register, hc, Bool.false_eq_true, if_false,
      SocketStreamBroker.erase]

theorem connectLoop_state (net : Network) (addresses : List Address) :
    ∀ (s : SocketStreamBroker) (socket : Option Socket),
      (connectLoop net s socket addresses).2 = s := by
  induction addresses with
  | nil => intro s socket; rfl
  | cons a rest ih =>
      intro s socket
      obtain ⟨cancelled, pending⟩ := s
      cases cancelled with
      | true => simp [connectLoop]
      | false =>
          simp only [connectLoop, Bool.false_eq_true, if_false, eraseIdx_append_length]
          cases net.connect a with
          | ok u => rfl
          | error e =>
              by_cases hr : rest.isEmpty = true
              · simp [hr]
              · simp only [hr, if_false]
                exact ih _ _

theorem getStream_state (net : Network) (s : SocketStreamBroker) (uri : URI) :
    (SocketStreamBroker.getStream net s uri).2 = s := by
  unfold SocketStreamBroker.getStream
  split
  · rfl
  · split
    · rfl
    · split
      · rfl
      · split
        · rfl
        · have := connectLoop_state net ‹_› s none
          split <;> simp_all

theorem apply_cancelled (op : BrokerOp) (s : SocketStreamBroker) (h : s.cancelled = true) :
    (op.apply s).cancelled = true := by
  cases op with
  | getStream net uri => simp [BrokerOp.apply, getStream_state, h]
  | register socket => simp [BrokerOp.apply, SocketStreamBroker.register, h]
  | erase it2 => simpa [BrokerOp.apply, SocketStreamBroker.erase] using h
  | cancelPending => rfl

theorem foldl_apply_cancelled (ops : List BrokerOp) :
    ∀ (s : SocketStreamBroker), s.cancelled = true →
      (ops.foldl (fun st op => op.apply st) s).cancelled = true := by
  induction ops with
  | nil => intro s h; exact h
  | cons op rest ih =>
      intro s h
      exact ih _ (apply_cancelled op s h)

/-- C16. `cancelPending` sets `m_cancelled` and no operation on the broker
clears it: after `cancelPending` and any further operations, every
`getStream`, for every URI and whatever the network would answer, raises
`aborted` with the state unchanged; the registration of a socket raises
`aborted` and leaves `m_pending` unchanged, and so does a `getStream` that
has resolved its addresses and comes to its next registration. -/
theorem cancelPending_latches (s : SocketStreamBroker) (ops : List BrokerOp)
    (net : Network) (uri : URI) (socket : Socket) (last : Option Socket)
    (a : Address) (rest : List Address) :
    s.cancelPending.cancelled = true ∧
    (ops.foldl (fun st op => op.apply st) s.cancelPending).cancelled = true ∧
    SocketStreamBroker.getStream net
        (ops.foldl (fun st op => op.apply st) s.cancelPending) uri =
      (.error .aborted, ops.foldl (fun st op => op.apply st) s.cancelPending) ∧
    (ops.foldl (fun st op => op.apply st) s.cancelPending).register socket =
      (.error .aborted, ops.foldl (fun st op => op.apply st) s.cancelPending) ∧
    connectLoop net (ops.foldl (fun st op => op.apply st) s.cancelPending) last
        (a :: rest) =
      (.error .aborted, ops.foldl (fun st op => op.apply st) s.cancelPending) := by
  have h := foldl_apply_cancelled ops s.cancelPending rfl
  refine ⟨rfl, h, ?_, ?_, ?_⟩
  · simp [SocketStreamBroker.getStream, h]
  · simp [SocketStreamBroker.register, h]
  · simp [connectLoop, h]

theorem connectLoop_first_success (net : Network) (s : SocketStreamBroker)
    (hs : s.cancelled = false) (a : Address) (post : List Address)
    (ha : net.connect a = .ok ()) :
    ∀ (pre : List Address) (socket : Option Socket),
      (∀ x ∈ pre, ∃ e, net.connect x = .error e) →
      connectLoop net s socket (pre ++ a :: post) = (.ok (some ⟨a⟩), s) := by
  obtain ⟨cancelled, pending⟩ := s
  simp only at hs
  subst hs
  intro pre
  induction pre with
  | nil =>
      intro socket _
      simp [connectLoop, ha, eraseIdx_append_length]
  | cons x pre ih =>
      intro socket hpre
      obtain ⟨e, he⟩ := hpre x (List.mem_cons_self _ _)
      simp only [List.cons_append, connectLoop, Bool.false_eq_true, if_false, he,
        eraseIdx_append_length]
      have hne : (pre ++ a :: post).isEmpty = false := by
        cases pre <;> rfl
      simp only [List.append_eq, hne, Bool.false_eq_true, if_false]
      exact ih _ (fun y hy => hpre y (List.mem_cons_of_mem _ hy))

theorem connectLoop_all_fail (net : Network) (s : SocketStreamBroker)
    (hs : s.cancelled = false) (a : Address) (e : Error)
    (ha : net.connect a = .error e) :
    ∀ (pre : List Address) (socket : Option Socket),
      (∀ x ∈ pre, ∃ e, net.connect x = .error e) →
      connectLoop net s socket (pre ++ [a]) = (.error e, s) := by
  obtain ⟨cancelled, pending⟩ := s
  simp only at hs
  subst hs
  intro pre
  induction pre with
  | nil =>
      intro socket _
      simp [connectLoop, ha, eraseIdx_append_length]
  | cons x pre ih =>
      intro socket hpre
      obtain ⟨e1, he⟩ := hpre x (List.mem_cons_self _ _)
      simp only [List.cons_append, connectLoop, Bool.false_eq_true, if_false, he,
        eraseIdx_append_length]
      have hne : (pre ++ [a]).isEmpty = false := by
        cases pre <;> rfl
      simp only [List.append_eq, hne, Bool.false_eq_true, if_false]
      exact ih _ (fun y hy => hpre y (List.mem_cons_of_mem _ hy))

/-! ## Theorems: waiting and growing -/

theorem getConnection_eq_finishDial {σ : Type} (perHost : Nat) (v : ConnectionView)
    (b : StreamBroker σ) (s : σ) (m : ConnectionMap) (uri : URI) (force : Bool)
    (hdial : (enter perHost v m uri force).1 = .dial) :
    ((getConnection perHost v b s m uri force).result,
      (getConnection perHost v b s m uri force).conns) =
      finishDial (b.getStream s (schemeAndAuthority uri)).1
        (enter perHost v m uri force).2 (schemeAndAuthority uri) := by
  have heq : enter perHost v m uri force = (.dial, (enter perHost v m uri force).2) :=
    Prod.ext hdial rfl
  cases hg : b.getStream s (schemeAndAuthority uri) with
  | mk r s1 =>
      cases r with
      | ok stream =>
          simp only [getConnection, finishDial]
          rw [heq]
          simp [hg]
      | error e =>
          simp only [getConnection, finishDial]
          rw [heq]
          simp [hg]

theorem find_sweep_some (v : ConnectionView) (m : ConnectionMap) (key : URI)
    (l : ConnectionList) (hfind : find m key = some l) (hne : l.filter (kept v) ≠ []) :
    find (sweep v m) key = some (l.filter (kept v)) := by
  induction m with
  | nil => simp [find] at hfind
  | cons e rest ih =>
      obtain ⟨k, l0⟩ := e
      by_cases hk : k = key
      · subst hk
        simp only [find, if_true] at hfind
        cases hfind
        have : (List.filter (kept v) l).isEmpty = false := by
          cases h : List.filter (kept v) l with
          | nil => exact absurd h hne
          | cons a t => rfl
        simp only [sweep, sweepList_eq_filter, this, Bool.false_eq_true, if_false, find,
          if_true]
      · simp only [find, hk, if_false] at hfind
        by_cases hemp : (sweepList v l0).isEmpty = true
        · simp [sweep, hemp, ih hfind]
        · simp [sweep, hemp, find, hk, ih hfind]

theorem find_sweep_none (v : ConnectionView) (m : ConnectionMap) (key : URI)
    (hfind : find m key = none) : find (sweep v m) key = none := by
  induction m with
  | nil => rfl
  | cons e rest ih =>
      obtain ⟨k, l0⟩ := e
      by_cases hk : k = key
      · simp [find, hk] at hfind
      · simp only [find, hk, if_false] at hfind
        by_cases hemp : (sweepList v l0).isEmpty = true
        · simp [sweep, hemp, ih hfind]
        · simp [sweep, hemp, find, hk, ih hfind]

theorem minElement_blank_iff (v : ConnectionView) (l : ConnectionList) (hne : l ≠ []) :
    (∃ i, minElement (least v) l = some (i, none)) ↔ ∀ s ∈ l, s = none := by
  obtain ⟨i, r, hmin, hget, hle, _⟩ :=
    minElement_spec (least v) (load v) (least_iff v) l hne
  constructor
  · rintro ⟨j, hj⟩ s hs
    rw [hmin] at hj
    simp only [Option.some.injEq, Prod.mk.injEq] at hj
    obtain ⟨_, rfl⟩ := hj
    have := hle s hs
    cases s with
    | none => rfl
    | some c => simp [load] at this
  · intro hall
    have hr : r = none := hall r (List.getElem?_mem hget)
    exact ⟨i, by rw [hmin, hr]⟩

theorem select_wait_of_all_blank (perHost : Nat) (v : ConnectionView) (m : ConnectionMap)
    (key : URI) (l : ConnectionList) (hfind : find m key = some l) (hne : l ≠ [])
    (hfull : perHost ≤ l.length) (hall : ∀ s ∈ l, s = none) :
    select perHost v m key = .wait := by
  obtain ⟨i, hi⟩ := (minElement_blank_iff v l hne).2 hall
  have hemp : l.isEmpty = false := by
    cases l with
    | nil => exact absurd rfl hne
    | cons a t => rfl
  simp [select, hfind, hemp, hfull, hi]

theorem select_found_mem (perHost : Nat) (v : ConnectionView) (m : ConnectionMap)
    (key : URI) (c : ClientConnection) (h : select perHost v m key = .found c) :
    ∃ l, find m key = some l ∧ some c ∈ l := by
  cases hfind : find m key with
  | none => simp [select, hfind] at h
  | some l =>
      refine ⟨l, rfl, ?_⟩
      by_cases hne : l = []
      · subst hne
        simp [select, hfind] at h
      · obtain ⟨i, r, hmin, hget, _, _⟩ :=
          minElement_spec (least v) (load v) (least_iff v) l hne
        by_cases hcond : (!l.isEmpty && decide (perHost ≤ l.length)) = true
        · simp only [select, hfind, hcond, if_true, hmin] at h
          cases r with
          | none => simp at h
          | some d =>
              simp only [Selection.found.injEq] at h
              subst h
              exact List.getElem?_mem hget
        · simp [select, hfind, hcond] at h

/-- C18. Under `least` every connection orders before a blank slot and no
slot orders before a connection because it is blank, so `std::min_element`
on a non-empty entry yields a blank slot exactly when every slot is blank.
On a full entry of blank slots `getConnection` (`forceNewConnection =
false`) waits: no dial, pool as after the clean-up, and a woken waiter runs
the selection again from `m_conns.find`; a connection that is returned is
held by a slot, never a null pointer.  With `connectionsPerHost = 1`: a
first caller dials, a second caller waits without a dial, and once the
first caller has stored its connection, the woken second caller returns
that same connection. -/
theorem blank_slot_never_selected (v : ConnectionView) :
    (∀ c, least v (some c) none = true ∧ least v none (some c) = false) ∧
    least v none none = false ∧
    (∀ (l : ConnectionList), l ≠ [] →
      ((∃ i, minElement (least v) l = some (i, none)) ↔ ∀ s ∈ l, s = none)) ∧
    (∀ (σ : Type) (b : StreamBroker σ) (s : σ) (perHost : Nat) (m : ConnectionMap)
      (uri : URI) (l : ConnectionList),
      find (sweep v m) (schemeAndAuthority uri) = some l → l ≠ [] → perHost ≤ l.length →
      (∀ x ∈ l, x = none) →
      (getConnection perHost v b s m uri false).result = .waiting ∧
      (getConnection perHost v b s m uri false).dials = [] ∧
      (getConnection perHost v b s m uri false).conns = sweep v m ∧
      wake perHost v (sweep v m) (schemeAndAuthority uri) = (.wait, sweep v m)) ∧
    (∀ (perHost : Nat) (m : ConnectionMap) (key : URI) (c : ClientConnection),
      (wake perHost v m key).1 = .found c → ∃ l, find m key = some l ∧ some c ∈ l) ∧
    (∀ (v1 v2 : ConnectionView) (m : ConnectionMap) (uri : URI) (stream : Stream),
      find (sweep v1 m) (schemeAndAuthority uri) = none →
      (enter 1 v1 m uri false).1 = .dial ∧
      enter 1 v2 (enter 1 v1 m uri false).2 uri false =
        (.wait, sweep v2 (enter 1 v1 m uri false).2) ∧
      (finishDial (.ok stream) (sweep v2 (enter 1 v1 m uri false).2)
        (schemeAndAuthority uri)).1 = .returned ⟨stream⟩ false ∧
      (wake 1 v
        (finishDial (.ok stream) (sweep v2 (enter 1 v1 m uri false).2)
          (schemeAndAuthority uri)).2 (schemeAndAuthority uri)).1 = .found ⟨stream⟩) := by
  refine ⟨fun c => ⟨rfl, rfl⟩, rfl, fun l hne => minElement_blank_iff v l hne, ?_, ?_, ?_⟩
  · intro σ b s perHost m uri l hfind hne hfull hall
    have hsel := select_wait_of_all_blank perHost v (sweep v m) (schemeAndAuthority uri) l
      hfind hne hfull hall
    simp [getConnection, enter, wake, hsel]
  · intro perHost m key c h
    apply select_found_mem perHost v m key c
    cases hs : select perHost v m key with
    | found d =>
        simp only [wake, hs, Selection.found.injEq] at h
        rw [h]
    | wait => simp [wake, hs] at h
    | dial => simp [wake, hs] at h
  · intro v1 v2 m uri stream hnone
    have hsel1 : select 1 v1 (sweep v1 m) (schemeAndAuthority uri) = .dial := by
      simp [select, hnone]
    have hent1 : enter 1 v1 m uri false =
        (.dial, pushPending (sweep v1 m) (schemeAndAuthority uri)) := by
      simp [enter, hsel1]
    have hf1 : find (pushPending (sweep v1 m) (schemeAndAuthority uri))
        (schemeAndAuthority uri) = some [none] := by
      rw [find_pushPending_self, hnone]; rfl
    have hf2 : find (sweep v2 (pushPending (sweep v1 m) (schemeAndAuthority uri)))
        (schemeAndAuthority uri) = some [none] := by
      have := find_sweep_some v2 _ _ [none] hf1 (by simp [kept])
      simpa [kept] using this
    have hsel2 := select_wait_of_all_blank 1 v2 _ (schemeAndAuthority uri) [none] hf2
      (by simp) (by simp) (by simp)
    have hf3 : find (dialSucceeded ⟨stream⟩
        (sweep v2 (pushPending (sweep v1 m) (schemeAndAuthority uri)))
        (schemeAndAuthority uri)) (schemeAndAuthority uri) = some [some ⟨stream⟩] := by
      rw [find_dialSucceeded_self, hf2]; rfl
    rw [hent1]
    refine ⟨rfl, ?_, rfl, ?_⟩
    · simp [enter, hsel2]
    · simp [finishDial, wake, select, hf3, minElement, minElementFrom]

/-- C18 witness. One blank slot under `http://x` and a bound of one: the
call waits without a dial; from the empty pool, the second caller, woken
after the first caller has stored the connection over pipe 0, returns that
connection. -/
theorem blank_slot_never_selected_witness :
    find (sweep idleView [(keyX, [none])]) (schemeAndAuthority uriA) = some [none] ∧
    (getConnection 1 idleView countingBroker 0 [(keyX, [none])] uriA false).result =
      .waiting ∧
    (getConnection 1 idleView countingBroker 0 [(keyX, [none])] uriA false).dials = [] ∧
    find (sweep idleView []) (schemeAndAuthority uriA) = none ∧
    (enter 1 idleView [] uriA false).1 = .dial ∧
    (wake 1 idleView
      (finishDial (.ok (.pipe 0)) (sweep idleView (enter 1 idleView [] uriA false).2)
        (schemeAndAuthority uriA)).2 (schemeAndAuthority uriA)).1 = .found ⟨.pipe 0⟩ :=
  have h := blank_slot_never_selected idleView
  have h1 := h.2.2.2.1 Nat countingBroker 0 1 [(keyX, [none])] uriA [none]
    (by decide) (by decide) (by decide) (by decide)
  have h2 := h.2.2.2.2.2 idleView idleView [] uriA (.pipe 0) (by decide)
  ⟨by decide, h1.1, h1.2.1, by decide, h2.1, h2.2.2.2⟩

theorem select_dial_iff (perHost : Nat) (v : ConnectionView) (m : ConnectionMap) (key : URI)
    (hm : ∀ l, find m key = some l → l ≠ []) :
    select perHost v m key = .dial ↔ ∀ l, find m key = some l → l.length < perHost := by
  cases hfind : find m key with
  | none => simp [select, hfind]
  | some l =>
      have hne := hm l hfind
      have hemp : l.isEmpty = false := by
        cases l with
        | nil => exact absurd rfl hne
        | cons a t => rfl
      by_cases hfull : perHost ≤ l.length
      · obtain ⟨i, r, hmin, _, _, _⟩ :=
          minElement_spec (least v) (load v) (least_iff v) l hne
        have hnd : select perHost v m key ≠ .dial := by
          cases r <;> simp [select, hfind, hemp, hfull, hmin]
        constructor
        · intro h; exact absurd h hnd
        · intro h
          have := h l rfl
          omega
      · constructor
        · intro _ l2 hl2
          simp only [Option.some.injEq] at hl2
          subst hl2
          omega
        · intro _
          simp [select, hfind, hemp, hfull]

theorem find_sweep_ne_nil (v : ConnectionView) (m : ConnectionMap) (key : URI) :
    ∀ l, find (sweep v m) key = some l → l ≠ [] := by
  intro l hl
  exact (sweep_forall (fun _ => True) v m (fun _ _ => trivial) (fun _ _ => trivial)
    (key, l) (mem_of_find _ _ _ hl)).2

/-- C19. For `forceNewConnection = false`, `getConnection` reserves a blank
slot and calls the stream broker if and only if, after the clean-up, there
is no entry for the key or the entry holds fewer than `connectionsPerHost`
slots, whatever connections the entry holds; a woken waiter decides in the
same way on the pool it finds.  With `connectionsPerHost = 2`, a stream
broker that answers twice and connections that stay open, three calls in a
row for the same URI return a new connection, a second new connection, and
the first one again (it is not more loaded than the second), with two
`getStream` calls in all. -/
theorem grow_before_reuse {σ : Type} (perHost : Nat) (v : ConnectionView)
    (b : StreamBroker σ) (s : σ) (m : ConnectionMap) (uri : URI) :
    ((enter perHost v m uri false).1 = .dial ↔
      ∀ l, find (sweep v m) (schemeAndAuthority uri) = some l → l.length < perHost) ∧
    ((enter perHost v m uri false).1 = .dial →
      (enter perHost v m uri false).2 = pushPending (sweep v m) (schemeAndAuthority uri) ∧
      (getConnection perHost v b s m uri false).dials = [schemeAndAuthority uri]) ∧
    ((enter perHost v m uri false).1 ≠ .dial →
      (enter perHost v m uri false).2 = sweep v m ∧
      (getConnection perHost v b s m uri false).dials = [] ∧
      (getConnection perHost v b s m uri false).conns = sweep v m) ∧
    ((∀ l, find m (schemeAndAuthority uri) = some l → l ≠ []) →
      ((wake perHost v m (schemeAndAuthority uri)).1 = .dial ↔
        ∀ l, find m (schemeAndAuthority uri) = some l → l.length < perHost)) ∧
    (∀ (v2 v3 : ConnectionView) (s1 s2 : σ) (streamA streamB : Stream),
      b.getStream s (schemeAndAuthority uri) = (.ok streamA, s1) →
      b.getStream s1 (schemeAndAuthority uri) = (.ok streamB, s2) →
      v2.newRequestsAllowed ⟨streamA⟩ = true →
      v3.newRequestsAllowed ⟨streamA⟩ = true → v3.newRequestsAllowed ⟨streamB⟩ = true →
      v3.outstandingRequests ⟨streamA⟩ ≤ v3.outstandingRequests ⟨streamB⟩ →
      runCalls 2 b s [] [(v, uri, false), (v2, uri, false), (v3, uri, false)] =
        ([.returned ⟨streamA⟩ false, .returned ⟨streamB⟩ false, .returned ⟨streamA⟩ false],
          [(schemeAndAuthority uri, [some ⟨streamA⟩, some ⟨streamB⟩])], s2) ∧
      (getConnection 2 v b s [] uri false).dials ++
        (getConnection 2 v2 b s1 [(schemeAndAuthority uri, [some ⟨streamA⟩])] uri
          false).dials ++
        (getConnection 2 v3 b s2
          [(schemeAndAuthority uri, [some ⟨streamA⟩, some ⟨streamB⟩])] uri false).dials =
        [schemeAndAuthority uri, schemeAndAuthority uri]) := by
  have hent : (enter perHost v m uri false).1 = .dial ↔
      select perHost v (sweep v m) (schemeAndAuthority uri) = .dial := by
    cases hs : select perHost v (sweep v m) (schemeAndAuthority uri) <;> simp [enter, hs]
  refine ⟨?_, ?_, ?_, ?_, ?_⟩
  · rw [hent]
    exact select_dial_iff perHost v (sweep v m) _ (find_sweep_ne_nil v m _)
  · intro hd
    have h2 : (enter perHost v m uri false).2 =
        pushPending (sweep v m) (schemeAndAuthority uri) := by
      rcases enter_cases perHost v m uri false with ⟨h1, _⟩ | ⟨_, h2, _⟩
      · exact absurd hd h1
      · exact h2
    refine ⟨h2, ?_⟩
    have heq : enter perHost v m uri false =
        (.dial, pushPending (sweep v m) (schemeAndAuthority uri)) := Prod.ext hd h2
    cases hg : b.getStream s (schemeAndAuthority uri) with
    | mk r s1 => cases r <;> simp [getConnection, heq, hg]
  · intro hnd
    cases hs : select perHost v (sweep v m) (schemeAndAuthority uri) with
    | found c => simp [getConnection, enter, hs]
    | wait => simp [getConnection, enter, hs]
    | dial => exact absurd (hent.2 hs) hnd
  · intro hm
    have hw : (wake perHost v m (schemeAndAuthority uri)).1 = .dial ↔
        select perHost v m (schemeAndAuthority uri) = .dial := by
      cases hs : select perHost v m (schemeAndAuthority uri) <;> simp [wake, hs]
    rw [hw]
    exact select_dial_iff perHost v m _ hm
  · intro v2 v3 s1 s2 streamA streamB hg1 hg2 ha2 ha3 hb3 hle
    have hnlt : ¬ v3.outstandingRequests ⟨streamB⟩ < v3.outstandingRequests ⟨streamA⟩ := by
      omega
    have o1 : getConnection 2 v b s [] uri false =
        ⟨.returned ⟨streamA⟩ false, [(schemeAndAuthority uri, [some ⟨streamA⟩])], s1,
          [schemeAndAuthority uri]⟩ := by
      simp [getConnection, enter, sweep, select, find, pushPending, hg1, dialSucceeded,
        assignFirstBlank]
    have o2 :
        getConnection 2 v2 b s1 [(schemeAndAuthority uri, [some ⟨streamA⟩])] uri false =
        ⟨.returned ⟨streamB⟩ false,
          [(schemeAndAuthority uri, [some ⟨streamA⟩, some ⟨streamB⟩])], s2,
          [schemeAndAuthority uri]⟩ := by
      simp [getConnection, enter, sweep, sweepList, ha2, select, find, pushPending, hg2,
        dialSucceeded, assignFirstBlank]
    have o3 : getConnection 2 v3 b s2
        [(schemeAndAuthority uri, [some ⟨streamA⟩, some ⟨streamB⟩])] uri false =
        ⟨.returned ⟨streamA⟩ false,
          [(schemeAndAuthority uri, [some ⟨streamA⟩, some ⟨streamB⟩])], s2, []⟩ := by
      simp [getConnection, enter, sweep, sweepList, ha3, hb3, select, find, minElement,
        minElementFrom, least, hnlt]
    simp [runCalls, o1, o2, o3]

/-- C19 witness. A bound of two, the broker that hands out pipe 0 and then
pipe 1, idle connections: three calls for `http://x/a` from the empty pool
return the connection over pipe 0, the one over pipe 1, and the one over
pipe 0 again. -/
theorem grow_before_reuse_witness :
    countingBroker.getStream 0 (schemeAndAuthority uriA) = (.ok (.pipe 0), 1) ∧
    countingBroker.getStream 1 (schemeAndAuthority uriA) = (.ok (.pipe 1), 2) ∧
    idleView.outstandingRequests ⟨.pipe 0⟩ ≤ idleView.outstandingRequests ⟨.pipe 1⟩ ∧
    runCalls 2 countingBroker 0 []
        [(idleView, uriA, false), (idleView, uriA, false), (idleView, uriA, false)] =
      ([.returned ⟨.pipe 0⟩ false, .returned ⟨.pipe 1⟩ false, .returned ⟨.pipe 0⟩ false],
        [(schemeAndAuthority uriA, [some ⟨.pipe 0⟩, some ⟨.pipe 1⟩])], 2) :=
  ⟨rfl, rfl, le_refl _,
    ((grow_before_reuse 2 idleView countingBroker 0 [] uriA).2.2.2.2 idleView idleView 1 2
      (.pipe 0) (.pipe 1) rfl rfl rfl rfl rfl (le_refl _)).1⟩

/-- With at least one address resolved and the broker not cancelled,
`getStream` returns the stream over the socket of the first address whose
connect succeeds, whatever addresses follow it, and raises the error of the
last address when every connect fails; `m_pending` and `m_cancelled` are
as on entry. -/
theorem getStream_fallback (net : Network) (s : SocketStreamBroker) (uri : URI)
    (addresses : List Address) (hs : s.cancelled = false)
    (hhost : uri.authority.host.isSome = true)
    (hport : (uri.authority.port.isSome || uri.scheme.isSome) = true)
    (hlook : net.lookup (lookupName uri) = .ok addresses) :
    (∀ pre a post, addresses = pre ++ a :: post →
      (∀ x ∈ pre, ∃ e, net.connect x = .error e) → net.connect a = .ok () →
      SocketStreamBroker.getStream net s uri = (.ok (.socketStream (some ⟨a⟩)), s)) ∧
    (∀ pre a e, addresses = pre ++ [a] →
      (∀ x ∈ pre, ∃ e, net.connect x = .error e) → net.connect a = .error e →
      SocketStreamBroker.getStream net s uri = (.error e, s)) ∧
    (SocketStreamBroker.getStream net s uri).2 = s := by
  refine ⟨?_, ?_, getStream_state net s uri⟩
  · intro pre a post hadd hpre ha
    have := connectLoop_first_success net s hs a post ha pre none hpre
    simp [SocketStreamBroker.getStream, hs, hhost, hport, hlook, hadd, this]
  · intro pre a e hadd hpre ha
    have := connectLoop_all_fail net s hs a e ha pre none hpre
    simp [SocketStreamBroker.getStream, hs, hhost, hport, hlook, hadd, this]

/-! ## Theorems: the pool bound over the tasks of the cache -/

theorem after_conns (st : CacheState) (key : URI) (r : Selection × ConnectionMap)
    (waiting : List URI) : (st.after key r waiting).conns = r.2 := by
  unfold CacheState.after
  cases r.1 <;> rfl

theorem after_dialing (st : CacheState) (key : URI) (r : Selection × ConnectionMap)
    (waiting : List URI) :
    (r.1 = .dial ∧ (st.after key r waiting).dialing = key :: st.dialing) ∨
    (r.1 ≠ .dial ∧ (st.after key r waiting).dialing = st.dialing) := by
  unfold CacheState.after
  cases r.1 <;> simp

theorem cacheReachable_conns (perHost : Nat) (allowForce : Bool) (st : CacheState)
    (h : CacheReachable perHost allowForce st) : Reachable perHost allowForce st.conns := by
  induction h with
  | empty => exact .empty
  | @step st0 st1 _ hstep ih =>
      cases hstep with
      | enter v _ uri force hf =>
          rw [after_conns]
          exact .step ih (.enter v st0.conns uri force hf)
      | wake v _ key hk =>
          rw [after_conns]
          exact .step ih (.wake v st0.conns key)
      | dialSucceeded c _ key hk => exact .step ih (.dialSucceeded c st0.conns key)
      | dialFailed _ key hk => exact .step ih (.dialFailed st0.conns key)
      | closeConnections => exact .step ih (.closeConnections st0.conns)

theorem blanksOf_sweep (v : ConnectionView) (m : ConnectionMap) (key : URI) :
    blanksOf m key ≤ blanksOf (sweep v m) key := by
  unfold blanksOf
  cases hfind : find m key with
  | none => simp
  | some l =>
      by_cases hmem : none ∈ l
      · have hne : l.filter (kept v) ≠ [] := by
          intro h
          have : none ∈ l.filter (kept v) := List.mem_filter.2 ⟨hmem, rfl⟩
          rw [h] at this
          simp at this
        rw [find_sweep_some v m key l hfind hne]
        simp only [Option.getD_some]
        rw [List.count_filter (by rfl)]
      · have : List.count none l = 0 := List.count_eq_zero.2 hmem
        simp [this]

theorem blanksOf_pushPending_self (m : ConnectionMap) (key : URI) :
    blanksOf (pushPending m key) key = blanksOf m key + 1 := by
  unfold blanksOf
  rw [find_pushPending_self]
  simp

theorem blanksOf_pushPending_ne (m : ConnectionMap) (key k : URI) (hk : k ≠ key) :
    blanksOf (pushPending m key) k = blanksOf m k := by
  unfold blanksOf
  rw [find_pushPending_ne m key k hk]

theorem blanksOf_dialSucceeded_self (c : ClientConnection) (m : ConnectionMap) (key : URI) :
    blanksOf m key ≤ blanksOf (dialSucceeded c m key) key + 1 := by
  unfold blanksOf
  rw [find_dialSucceeded_self]
  cases hfind : find m key with
  | none => simp
  | some l =>
      by_cases hmem : none ∈ l
      · obtain ⟨pre, post, h1, _, h3, _⟩ := firstBlank_split l hmem
        simp only [Option.map_some', Option.getD_some, h3 c]
        rw [h1]
        simp only [List.count_append, List.count_cons, beq_self_eq_true, if_true,
          reduceCtorEq, beq_iff_eq, if_false]
        omega
      · have : List.count none l = 0 := List.count_eq_zero.2 hmem
        simp [this]

theorem blanksOf_dialSucceeded_ne (c : ClientConnection) (m : ConnectionMap) (key k : URI)
    (hk : k ≠ key) : blanksOf (dialSucceeded c m key) k = blanksOf m k := by
  unfold blanksOf
  rw [find_dialSucceeded_ne c m key k hk]

theorem blanksOf_dialFailed_self (m : ConnectionMap) (key : URI) :
    blanksOf m key ≤ blanksOf (dialFailed m key) key + 1 := by
  unfold blanksOf
  cases hfind : find m key with
  | none => simp
  | some l =>
      by_cases hmem : none ∈ l
      · obtain ⟨pre, post, h1, _, _, h4⟩ := firstBlank_split l hmem
        obtain ⟨hf1, _⟩ := find_dialFailed_self m key l hfind
        by_cases hne : eraseFirstBlank l = []
        · have hl : l = [none] := by
            rw [h4] at hne
            simp only [List.append_eq_nil] at hne
            rw [h1, hne.1, hne.2]
            rfl
          simp [hl]
        · rw [hf1 hne]
          simp only [Option.getD_some, h4]
          rw [h1]
          simp only [List.count_append, List.count_cons, beq_self_eq_true, if_true,
            reduceCtorEq, beq_iff_eq, if_false]
          omega
      · have : List.count none l = 0 := List.count_eq_zero.2 hmem
        simp [this]

theorem blanksOf_dialFailed_ne (m : ConnectionMap) (key k : URI) (hk : k ≠ key) :
    blanksOf (dialFailed m key) k = blanksOf m k := by
  unfold blanksOf
  rw [find_dialFailed_ne m key k hk]

theorem count_erase_le (l : List URI) (key k : URI) (hk : key ∈ l) :
    (if k = key then (l.erase key).count k + 1 else (l.erase key).count k) = l.count k := by
  by_cases h : k = key
  · subst h
    have := List.one_le_count_iff.2 hk
    simp only [if_true, List.count_erase_self]
    omega
  · simp [h, List.count_erase_of_ne h]

theorem cacheReachable_dialing (perHost : Nat) (allowForce : Bool) (st : CacheState)
    (h : CacheReachable perHost allowForce st) :
    ∀ k, st.dialing.count k ≤ blanksOf st.conns k := by
  induction h with
  | empty => intro k; simp
  | @step st0 st1 _ hstep ih =>
      cases hstep with
      | enter v _ uri force hf =>
          intro k
          rw [after_conns]
          have hsw := le_trans (ih k) (blanksOf_sweep v st0.conns k)
          rcases after_dialing st0 (schemeAndAuthority uri)
            (enter perHost v st0.conns uri force) st0.waiting with ⟨hd, hdl⟩ | ⟨hd, hdl⟩
          · rw [hdl]
            have h2 : (enter perHost v st0.conns uri force).2 =
                pushPending (sweep v st0.conns) (schemeAndAuthority uri) := by
              rcases enter_cases perHost v st0.conns uri force with ⟨h1, _⟩ | ⟨_, h2, _⟩
              · exact absurd hd h1
              · exact h2
            rw [h2]
            by_cases hk : k = schemeAndAuthority uri
            · subst hk
              rw [blanksOf_pushPending_self, List.count_cons_self]
              omega
            · rw [blanksOf_pushPending_ne _ _ _ hk, List.count_cons_of_ne hk]
              exact hsw
          · rw [hdl]
            have h2 : (enter perHost v st0.conns uri force).2 = sweep v st0.conns := by
              rcases enter_cases perHost v st0.conns uri force with ⟨_, h2⟩ | ⟨h1, _, _⟩
              · exact h2
              · exact absurd h1 hd
            rw [h2]
            exact hsw
      | wake v _ key hkey =>
          intro k
          rw [after_conns]
          rcases after_dialing st0 key (wake perHost v st0.conns key)
            (st0.waiting.erase key) with ⟨hd, hdl⟩ | ⟨hd, hdl⟩
          · rw [hdl]
            have h2 : (wake perHost v st0.conns key).2 = pushPending st0.conns key := by
              cases hs : select perHost v st0.conns key with
              | found c => simp [wake, hs] at hd
              | wait => simp [wake, hs] at hd
              | dial => simp [wake, hs]
            rw [h2]
            by_cases hk : k = key
            · subst hk
              rw [blanksOf_pushPending_self, List.count_cons_self]
              have := ih k
              omega
            · rw [blanksOf_pushPending_ne _ _ _ hk, List.count_cons_of_ne hk]
              exact ih k
          · rw [hdl]
            have h2 : (wake perHost v st0.conns key).2 = st0.conns := by
              cases hs : select perHost v st0.conns key with
              | found c => simp [wake, hs]
              | wait => simp [wake, hs]
              | dial => simp [wake, hs] at hd
            rw [h2]
            exact ih k
      | dialSucceeded c _ key hkey =>
          intro k
          have hc := count_erase_le st0.dialing key k hkey
          by_cases hk : k = key
          · subst hk
            simp only [if_true] at hc
            have := blanksOf_dialSucceeded_self c st0.conns k
            have := ih k
            show List.count k (st0.dialing.erase k) ≤ blanksOf (dialSucceeded c st0.conns k) k
            omega
          · simp only [hk, if_false] at hc
            show List.count k (st0.dialing.erase key) ≤ blanksOf (dialSucceeded c st0.conns key) k
            rw [blanksOf_dialSucceeded_ne _ _ _ _ hk, hc]
            exact ih k
      | dialFailed _ key hkey =>
          intro k
          have hc := count_erase_le st0.dialing key k hkey
          by_cases hk : k = key
          · subst hk
            simp only [if_true] at hc
            have := blanksOf_dialFailed_self st0.conns k
            have := ih k
            show List.count k (st0.dialing.erase k) ≤ blanksOf (dialFailed st0.conns k) k
            omega
          · simp only [hk, if_false] at hc
            show List.count k (st0.dialing.erase key) ≤ blanksOf (dialFailed st0.conns key) k
            rw [blanksOf_dialFailed_ne _ _ _ hk, hc]
            exact ih k
      | closeConnections => intro k; simp

/-- C1 (amended). With `connectionsPerHost ≥ 1` and calls that all pass
`forceNewConnection = false`, in every state reachable from the empty cache
by `getConnection` calls, wake-ups of suspended tasks, completions of the
dials in flight (those started since the last `closeConnections`) and
`closeConnections` calls, every key holds at most `connectionsPerHost`
slots; and the entry of every dial in flight is present and holds a blank
slot, so the iterator kept by the dialing task is the entry found under its
key. -/
theorem reachable_slots_le (perHost : Nat) (st : CacheState) (hpos : 1 ≤ perHost)
    (h : CacheReachable perHost false st) :
    (∀ k l, (k, l) ∈ st.conns → l.length ≤ perHost) ∧
    (∀ key ∈ st.dialing, ∃ l, find st.conns key = some l ∧ none ∈ l) := by
  refine ⟨reachable_length_le perHost st.conns hpos (cacheReachable_conns perHost false st h),
    ?_⟩
  intro key hkey
  have h1 := cacheReachable_dialing perHost false st h key
  have h2 := List.one_le_count_iff.2 hkey
  unfold blanksOf at h1
  cases hfind : find st.conns key with
  | none =>
      rw [hfind] at h1
      simp at h1
      omega
  | some l =>
      rw [hfind] at h1
      refine ⟨l, rfl, ?_⟩
      apply List.one_le_count_iff.1
      simp only [Option.getD_some] at h1
      omega

/-- C1 counterexample. With `connectionsPerHost = 1`, two calls with
`forceNewConnection = true` (the first dial completed) leave two slots under
one key; and with `connectionsPerHost = 0` a single call with
`forceNewConnection = false` leaves one slot. -/
theorem reachable_slots_le_fails :
    ¬ (∀ (perHost : Nat) (st : CacheState), CacheReachable perHost true st →
        ∀ k l, (k, l) ∈ st.conns → l.length ≤ perHost) ∧
    ¬ (∀ (perHost : Nat) (st : CacheState), CacheReachable perHost false st →
        ∀ k l, (k, l) ∈ st.conns → l.length ≤ perHost) := by
  constructor
  · intro h
    have r1 : CacheReachable 1 true ⟨[(keyX, [none])], [keyX], []⟩ :=
      .step .empty (.enter idleView ⟨[], [], []⟩ uriA true (fun _ => rfl))
    have r2 : CacheReachable 1 true ⟨[(keyX, [some connA])], [], []⟩ :=
      .step r1 (.dialSucceeded connA ⟨[(keyX, [none])], [keyX], []⟩ keyX (by decide))
    have r3 : CacheReachable 1 true ⟨[(keyX, [some connA, none])], [keyX], []⟩ :=
      .step r2 (.enter idleView ⟨[(keyX, [some connA])], [], []⟩ uriA true (fun _ => rfl))
    have := h 1 _ r3 keyX [some connA, none] (by simp)
    simp at this
  · intro h
    have r1 : CacheReachable 0 false ⟨[(keyX, [none])], [keyX], []⟩ :=
      .step .empty (.enter idleView ⟨[], [], []⟩ uriA false (fun h => by cases h))
    have := h 0 _ r1 keyX [none] (by simp)
    simp at this

/-- C1 witness. The state after one call and its completed dial, with
`connectionsPerHost = 1`: one slot under `http://x`, no dial in flight. -/
theorem reachable_slots_le_witness :
    1 ≤ 1 ∧ CacheReachable 1 false ⟨[(keyX, [some connA])], [], []⟩ ∧
    [some connA].length ≤ 1 :=
  have hreach : CacheReachable 1 false ⟨[(keyX, [some connA])], [], []⟩ :=
    @CacheReachable.step 1 false ⟨[(keyX, [none])], [keyX], []⟩ _
      (.step .empty (.enter idleView ⟨[], [], []⟩ uriA false (fun h => by cases h)))
      (.dialSucceeded connA ⟨[(keyX, [none])], [keyX], []⟩ keyX (by decide))
  ⟨le_refl 1, hreach,
    (reachable_slots_le 1 ⟨[(keyX, [some connA])], [], []⟩ (le_refl 1) hreach).1
      keyX [some connA] (by decide)⟩

/-! ## Theorems: address fallback -/

theorem connectLoop_cases (net : Network) (s : SocketStreamBroker) (hs : s.cancelled = false) :
    ∀ (addresses : List Address) (socket : Option Socket), addresses ≠ [] →
      (∃ pre a post, addresses = pre ++ a :: post ∧
        (∀ x ∈ pre, ∃ e, net.connect x = .error e) ∧ net.connect a = .ok () ∧
        connectLoop net s socket addresses = (.ok (some ⟨a⟩), s) ∧
        connectAttempts net s addresses = pre ++ [a]) ∨
      (∃ pre a e, addresses = pre ++ [a] ∧
        (∀ x ∈ addresses, ∃ e1, net.connect x = .error e1) ∧ net.connect a = .error e ∧
        connectLoop net s socket addresses = (.error e, s) ∧
        connectAttempts net s addresses = addresses) := by
  obtain ⟨cancelled, pending⟩ := s
  simp only at hs
  subst hs
  intro addresses
  induction addresses with
  | nil => intro socket h; exact absurd rfl h
  | cons a rest ih =>
      intro socket _
      cases ha : net.connect a with
      | ok u =>
          left
          refine ⟨[], a, rest, rfl, by simp, ha, ?_, ?_⟩
          · simp [connectLoop, ha, eraseIdx_append_length]
          · simp [connectAttempts, ha]
      | error e =>
          by_cases hr : rest = []
          · subst hr
            right
            refine ⟨[], a, e, rfl, ?_, ha, ?_, ?_⟩
            · intro x hx
              simp only [List.mem_singleton] at hx
              subst hx
              exact ⟨e, ha⟩
            · simp [connectLoop, ha, eraseIdx_append_length]
            · simp [connectAttempts, ha]
          · have hemp : rest.isEmpty = false := by
              cases rest with
              | nil => exact absurd rfl hr
              | cons b t => rfl
            have hloop : connectLoop net ⟨false, pending⟩ socket (a :: rest) =
                connectLoop net ⟨false, pending⟩ (some ⟨a⟩) rest := by
              simp [connectLoop, ha, eraseIdx_append_length, hemp]
            have hatt : connectAttempts net ⟨false, pending⟩ (a :: rest) =
                a :: connectAttempts net ⟨false, pending⟩ rest := by
              simp [connectAttempts, ha, eraseIdx_append_length, hemp]
            rcases ih (some ⟨a⟩) hr with ⟨pre, b, post, h1, h2, h3, h4, h5⟩ |
              ⟨pre, b, e2, h1, h2, h3, h4, h5⟩
            · left
              refine ⟨a :: pre, b, post, by rw [h1]; rfl, ?_, h3, by rw [hloop, h4], ?_⟩
              · intro x hx
                rcases List.mem_cons.1 hx with rfl | hx
                · exact ⟨e, ha⟩
                · exact h2 x hx
              · rw [hatt, h5]; rfl
            · right
              refine ⟨a :: pre, b, e2, by rw [h1]; rfl, ?_, h3, by rw [hloop, h4], ?_⟩
              · intro x hx
                rcases List.mem_cons.1 hx with rfl | hx
                · exact ⟨e, ha⟩
                · exact h2 x hx
              · rw [hatt, h5]

/-- C17. For a broker that is not cancelled and a lookup that yields at
least one address: the loop calls `connect` on the addresses in list order,
up to and including the first one whose connect succeeds; a returned stream
is the stream over the socket of that address, and no later address is
tried; an error is raised only when the connect to every address fails, and
it is the error of the last address; `m_pending` and `m_cancelled` are on
exit as they were on entry. -/
theorem getStream_address_fallback (net : Network) (s : SocketStreamBroker) (uri : URI)
    (addresses : List Address) (hs : s.cancelled = false)
    (hhost : uri.authority.host.isSome = true)
    (hport : (uri.authority.port.isSome || uri.scheme.isSome) = true)
    (hlook : net.lookup (lookupName uri) = .ok addresses) (hne : addresses ≠ []) :
    (∃ later, addresses = connectAttempts net s addresses ++ later) ∧
    (∀ stream, (SocketStreamBroker.getStream net s uri).1 = .ok stream →
      ∃ pre a post, addresses = pre ++ a :: post ∧
        (∀ x ∈ pre, ∃ e, net.connect x = .error e) ∧ net.connect a = .ok () ∧
        stream = .socketStream (some ⟨a⟩) ∧
        connectAttempts net s addresses = pre ++ [a]) ∧
    (∀ e, (SocketStreamBroker.getStream net s uri).1 = .error e →
      (∀ x ∈ addresses, ∃ e1, net.connect x = .error e1) ∧
      (∃ pre a, addresses = pre ++ [a] ∧ net.connect a = .error e) ∧
      connectAttempts net s addresses = addresses) ∧
    ((∃ x ∈ addresses, net.connect x = .ok ()) →
      ∃ stream, (SocketStreamBroker.getStream net s uri).1 = .ok stream) ∧
    (SocketStreamBroker.getStream net s uri).2 = s := by
  have hget : SocketStreamBroker.getStream net s uri =
      match connectLoop net s none addresses with
      | (.ok socket, s1) => (.ok (.socketStream socket), s1)
      | (.error e, s1) => (.error e, s1) := by
    simp [SocketStreamBroker.getStream, hs, hhost, hport, hlook]
  rcases connectLoop_cases net s hs addresses none hne with
    ⟨pre, a, post, h1, h2, h3, h4, h5⟩ | ⟨pre, a, e, h1, h2, h3, h4, h5⟩
  · have hres : SocketStreamBroker.getStream net s uri =
        (.ok (.socketStream (some ⟨a⟩)), s) := by rw [hget, h4]
    refine ⟨⟨post, by rw [h5, h1]; simp⟩, ?_, ?_, ?_, getStream_state net s uri⟩
    · intro stream hst
      rw [hres] at hst
      simp only [Except.ok.injEq] at hst
      exact ⟨pre, a, post, h1, h2, h3, hst.symm, h5⟩
    · intro e he
      rw [hres] at he
      cases he
    · intro _
      exact ⟨_, by rw [hres]⟩
  · have hres : SocketStreamBroker.getStream net s uri = (.error e, s) := by rw [hget, h4]
    refine ⟨⟨[], by rw [h5]; simp⟩, ?_, ?_, ?_, getStream_state net s uri⟩
    · intro stream hst
      rw [hres] at hst
      cases hst
    · intro e2 he
      rw [hres] at he
      simp only [Except.error.injEq] at he
      subst he
      exact ⟨h2, ⟨pre, a, h1, h3⟩, h5⟩
    · rintro ⟨x, hx, hok⟩
      obtain ⟨e1, he1⟩ := h2 x hx
      rw [hok] at he1
      cases he1

/-- C17 witness. A name that resolves to two addresses, the first of which
refuses the connection: `connect` is called on both, in order, and the
stream over the socket of the second is returned. -/
theorem getStream_address_fallback_witness :
    liveNetwork.lookup (lookupName keyX) = .ok [⟨1⟩, ⟨2⟩] ∧
    connectAttempts liveNetwork ⟨false, []⟩ [⟨1⟩, ⟨2⟩] = [⟨1⟩, ⟨2⟩] ∧
    SocketStreamBroker.getStream liveNetwork ⟨false, []⟩ keyX =
      (.ok (.socketStream (some ⟨⟨2⟩⟩)), ⟨false, []⟩) ∧
    (SocketStreamBroker.getStream liveNetwork ⟨false, []⟩ keyX).2 = ⟨false, []⟩ :=
  have h := getStream_address_fallback liveNetwork ⟨false, []⟩ keyX [⟨1⟩, ⟨2⟩] rfl
    (by decide) (by decide) rfl (by decide)
  ⟨rfl, by decide, by decide, h.2.2.2.2⟩

end HTTP
end Mordor
